import Mathlib

/-!
Verification of the content-rewriting core of `astro_to_hatena_converter.py`:
a shallow embedding of the converter class `AstroToHatenaConverter` (header
normalization, strikethrough, list restructuring, code-block reformatting,
image-tag normalization, LaTeX-math detection, and the whole-file pipeline),
together with theorems settling the specification claims about it.

Strings are modelled as `List Char` internally (Lean `String` is a wrapper
around `List Char` in this toolchain), and Python regular-expression
substitutions are modelled by explicit left-to-right scanners whose matching
semantics mirror the concrete patterns used in the source.
-/

namespace HatenaConv

/-! ## Character classes (Python `str.isspace` / regex `\s`, `\w`, `\d`) -/

/-- Python whitespace for `lstrip`/`\s` (ASCII range): space, tab, newline,
carriage return, vertical tab, form feed. -/
def pySpace (c : Char) : Bool :=
  c = ' ' || c = '\t' || c = '\n' || c = '\r' || c = '\x0b' || c = '\x0c'

/-- Regex `\w` word characters (ASCII range): letters, digits, underscore. -/
def isWordChar (c : Char) : Bool :=
  c.isAlphanum || c = '_'

/-! ## Line splitting and joining (Python `str.split('\n')`, `'\n'.join`) -/

/-- Accumulator pass for `splitLines`: current line and completed lines. -/
def splitLinesAux (cs : List Char) : List Char × List (List Char) :=
  cs.foldr
    (fun c acc => if c = '\n' then ([], acc.1 :: acc.2) else (c :: acc.1, acc.2))
    ([], [])

/-- Python `content.split('\n')`: always returns at least one (possibly
empty) line. -/
def splitLines (cs : List Char) : List (List Char) :=
  (splitLinesAux cs).1 :: (splitLinesAux cs).2

/-- Python `sep.join(parts)`. -/
def joinSep (sep : List Char) : List (List Char) → List Char
  | [] => []
  | [l] => l
  | l :: l' :: ls => l ++ sep ++ joinSep sep (l' :: ls)

/-! ## Substring search and counting -/

/-- `containsSeq p s`: does `p` occur as a contiguous substring of `s`? -/
def containsSeq (p : List Char) : List Char → Bool
  | [] => p.isPrefixOf []
  | c :: cs => p.isPrefixOf (c :: cs) || containsSeq p cs

/-- Fueled count of non-overlapping left-to-right occurrences of `p`. -/
def countSeqF (p : List Char) : Nat → List Char → Nat
  | _, [] => 0
  | 0, _ => 0
  | f + 1, c :: cs =>
    if p.isPrefixOf (c :: cs) then countSeqF p f (cs.drop (p.length - 1)) + 1
    else countSeqF p f cs

/-- Count of non-overlapping left-to-right occurrences of `p` in `s`. -/
def countSeq (p : List Char) (s : List Char) : Nat :=
  countSeqF p s.length s

/-! ## Generic left-to-right regex-substitution scanner

Python `re.sub` scans the subject left to right; at each position it tries
to match the pattern, and on success emits the replacement and resumes after
the match, otherwise it emits the character and moves one position right.
`scanF` is that loop, fueled for structural termination; each concrete
pattern is given by a `try` function returning `(replacement, rest)`. -/

def scanF (t : List Char → Option (List Char × List Char)) :
    Nat → List Char → List Char
  | 0, cs => cs
  | _ + 1, [] => []
  | f + 1, c :: cs =>
    match t (c :: cs) with
    | some (rep, r) => rep ++ scanF t f r
    | none => c :: scanF t f cs

/-- One full substitution pass over a string. -/
def pyReSub (t : List Char → Option (List Char × List Char)) (s : String) :
    String :=
  ⟨scanF t s.data.length s.data⟩

/-- Does the pattern `t` match at any position of the subject? -/
def hasMatch (t : List Char → Option (List Char × List Char)) :
    List Char → Bool
  | [] => false
  | c :: cs => (t (c :: cs)).isSome || hasMatch t cs

/-! ## Strikethrough (`convert_strikethrough`, regex `~~(.+?)~~`) -/

/-- Find the lazy (shortest, non-empty, newline-free) body followed by a
closing `~~`; returns the body and the remainder after the closer. This is
the `(.+?)~~` part of the pattern, `.` not matching newlines. -/
def fsc : List Char → Option (List Char × List Char)
  | [] => none
  | c :: cs =>
    if c = '\n' then none
    else if ['~', '~'].isPrefixOf cs then some ([c], cs.drop 2)
    else
      match fsc cs with
      | some br => some (c :: br.1, br.2)
      | none => none

/-- Try the pattern `~~(.+?)~~` at the current position; replacement is
`<s>\1</s>`. -/
def strikeTry (cs : List Char) : Option (List Char × List Char) :=
  match cs with
  | c1 :: c2 :: rest =>
    if c1 = '~' ∧ c2 = '~' then
      match fsc rest with
      | some br => some ("<s>".data ++ br.1 ++ "</s>".data, br.2)
      | none => none
    else none
  | _ => none

/-- `convert_strikethrough`: `re.sub(r'~~(.+?)~~', r'<s>\1</s>', content)`. -/
def convert_strikethrough (s : String) : String :=
  pyReSub strikeTry s

/-! ## List restructuring (`convert_lists`) -/

/-- The loop state of `convert_lists`: `in_ul`, `in_ol`, `indent_level`. -/
structure LState where
  in_ul : Bool
  in_ol : Bool
  indent_level : Nat
deriving DecidableEq

/-- `'    ' * k`. -/
def sp (k : Nat) : List Char :=
  List.replicate (4 * k) ' '

/-- `re.match(r'^- ', stripped)`. -/
def isBulletMarked (stripped : List Char) : Bool :=
  "- ".data.isPrefixOf stripped

/-- `re.match(r'^\d+\. ', stripped)`: length of the matched marker
(digits plus `'. '`), when it matches. -/
def orderedMarkerLen (stripped : List Char) : Option Nat :=
  let ds := stripped.takeWhile Char.isDigit
  if ds = [] then none
  else
    match stripped.drop ds.length with
    | '.' :: ' ' :: _ => some (ds.length + 2)
    | _ => none

/-- One iteration of the `convert_lists` loop: lines to append to `result`
and the updated state. -/
def processListLine (st : LState) (line : List Char) :
    List (List Char) × LState :=
  let stripped := line.dropWhile pySpace
  let ind := line.length - stripped.length
  if isBulletMarked stripped then
    let pst :=
      if st.in_ul = false ∨ st.indent_level < ind then
        let closePart := if st.in_ol then ["</ol>".data] else []
        let openPart :=
          if st.indent_level < ind then [sp (ind / 2) ++ "<ul>".data]
          else if st.in_ul = false then ["<ul>".data]
          else []
        (closePart ++ openPart,
         ({ in_ul := true, in_ol := false, indent_level := ind } : LState))
      else if ind < st.indent_level then
        ([sp (ind / 2) ++ "</ul>".data], { st with indent_level := ind })
      else ([], st)
    (pst.1 ++ [sp (ind / 2 + 1) ++ "<li> ".data ++ stripped.drop 2 ++ " </li>".data],
     pst.2)
  else
    match orderedMarkerLen stripped with
    | some mlen =>
      let pst :=
        if st.in_ol = false ∨ st.indent_level < ind then
          let closePart := if st.in_ul then ["</ul>".data] else []
          let openPart :=
            if st.indent_level < ind then [sp (ind / 2) ++ "<ol>".data]
            else if st.in_ol = false then ["<ol>".data]
            else []
          (closePart ++ openPart,
           ({ in_ul := false, in_ol := true, indent_level := ind } : LState))
        else if ind < st.indent_level then
          ([sp (ind / 2) ++ "</ol>".data], { st with indent_level := ind })
        else ([], st)
      (pst.1 ++ [sp (ind / 2 + 1) ++ "<li> ".data ++ stripped.drop mlen ++ " </li>".data],
       pst.2)
    | none =>
      ((if st.in_ul then ["</ul>".data] else []) ++
       (if st.in_ol then ["</ol>".data] else []) ++ [line],
       ({ in_ul := false, in_ol := false, indent_level := 0 } : LState))

/-- Classification used in claims: is this physical line recognized as a
list item (bullet or ordered) by `convert_lists`? -/
def isListLine (line : List Char) : Bool :=
  isBulletMarked (line.dropWhile pySpace) ||
    (orderedMarkerLen (line.dropWhile pySpace)).isSome

/-- One `foldl` step of the `convert_lists` loop: extend `result`, update
the state. -/
def listStep (acc : List (List Char) × LState) (line : List Char) :
    List (List Char) × LState :=
  (acc.1 ++ (processListLine acc.2 line).1, (processListLine acc.2 line).2)

/-- The whole `convert_lists` loop over the split lines, including the
closing tags emitted after the loop. -/
def convert_listsCore (lines : List (List Char)) : List (List Char) :=
  let res :=
    lines.foldl listStep
      ([], ({ in_ul := false, in_ol := false, indent_level := 0 } : LState))
  res.1 ++ (if res.2.in_ul then ["</ul>".data] else []) ++
    (if res.2.in_ol then ["</ol>".data] else [])

/-- `convert_lists`: split on newlines, run the loop, join with newlines. -/
def convert_lists (s : String) : String :=
  ⟨joinSep ['\n'] (convert_listsCore (splitLines s.data))⟩

/-! ## Code blocks (`convert_code_blocks`,
regex ` ```(\w+)?\n(.*?)``` ` with DOTALL) -/

/-- Find the earliest later triple-backtick closer: returns the body before
it and the remainder after it (the lazy `(.*?)` + closer). -/
def findClose : List Char → Option (List Char × List Char)
  | [] => none
  | c :: cs =>
    if ['`', '`', '`'].isPrefixOf (c :: cs) then some ([], cs.drop 2)
    else
      match findClose cs with
      | some br => some (c :: br.1, br.2)
      | none => none

/-- The replacement body: four spaces prepended to every line of the code
(`'\n'.join('    ' + line for line in code.split('\n'))`). -/
def indentBody (body : List Char) : List Char :=
  joinSep ['\n'] ((splitLines body).map (fun l => "    ".data ++ l))

/-- Try the fenced-code pattern at the current position. -/
def cbTry (cs : List Char) : Option (List Char × List Char) :=
  if ['`', '`', '`'].isPrefixOf cs then
    match (cs.drop 3).dropWhile isWordChar with
    | '\n' :: t2 =>
      match findClose t2 with
      | some br => some (indentBody br.1, br.2)
      | none => none
    | _ => none
  else none

/-- `convert_code_blocks`. -/
def convert_code_blocks (s : String) : String :=
  pyReSub cbTry s

/-! ## Images (`convert_images`,
regex `<img\s+src="([^"]+)"\s+alt="([^"]*)"[^>]*/?>`) -/

/-- Require a literal prefix and consume it (a literal in the pattern). -/
def guardPrefix (p l : List Char) : Option (List Char) :=
  if p.isPrefixOf l then some (l.drop p.length) else none

/-- Require at least one whitespace character and consume the whole run
(regex `\\s+`). -/
def guardSpaces (l : List Char) : Option (List Char) :=
  if l.takeWhile pySpace = [] then none else some (l.dropWhile pySpace)

/-- Consume a possibly empty run of non-quote characters up to a closing
double quote (regex `[^"]*"`): returns the run and the remainder. -/
def scanQuote (l : List Char) : Option (List Char × List Char) :=
  match l.dropWhile (fun c => c ≠ '"') with
  | '"' :: rest => some (l.takeWhile (fun c => c ≠ '"'), rest)
  | _ => none

/-- Consume non-`>` characters up to a closing `>` (regex `[^>]*/?>`; a
trailing slash is among the consumed non-`>` characters). -/
def scanToGt (l : List Char) : Option (List Char) :=
  match l.dropWhile (fun c => c ≠ '>') with
  | '>' :: rest => some rest
  | _ => none

/-- Try the image-element pattern
`<img\\s+src="([^"]+)"\\s+alt="([^"]*)"[^>]*/?>` at the current position;
replacement is `![alt](src)`. -/
def imgTry (cs : List Char) : Option (List Char × List Char) :=
  (guardPrefix "<img".data cs).bind fun a =>
  (guardSpaces a).bind fun b =>
  (guardPrefix "src=\"".data b).bind fun c =>
  (scanQuote c).bind fun sr =>
  if sr.1 = [] then none
  else
    (guardSpaces sr.2).bind fun d =>
    (guardPrefix "alt=\"".data d).bind fun e =>
    (scanQuote e).bind fun ar =>
    (scanToGt ar.2).bind fun rest =>
    some ("![".data ++ ar.1 ++ "](".data ++ sr.1 ++ ")".data, rest)

/-- `convert_images`. -/
def convert_images (s : String) : String :=
  pyReSub imgTry s

/-! ## LaTeX math detection (`check_latex_math`) -/

/-- Does the inline pattern `\$[^$]+\$` match starting here? -/
def inlineMathHere : List Char → Bool
  | '$' :: y :: ys => decide (y ≠ '$') && ys.contains '$'
  | _ => false

/-- `re.search(r'\$[^$]+\$', content) is not None`. -/
def hasInlineMath : List Char → Bool
  | [] => false
  | c :: cs => inlineMathHere (c :: cs) || hasInlineMath cs

/-- Does the block pattern `\$\$.*?\$\$` (DOTALL) match starting here? -/
def blockMathHere : List Char → Bool
  | '$' :: '$' :: cs => containsSeq "$$".data cs
  | _ => false

/-- `re.search(r'\$\$.*?\$\$', content, re.DOTALL) is not None`. -/
def hasBlockMath : List Char → Bool
  | [] => false
  | c :: cs => blockMathHere (c :: cs) || hasBlockMath cs

/-- `check_latex_math`: inline or block math present. Detection is a pure
predicate: it never changes the content. -/
def check_latex_math (s : String) : Bool :=
  hasInlineMath s.data || hasBlockMath s.data

/-- The fixed advisory appended to the warnings list when math is found. -/
def latexWarning : String :=
  "警告: LaTeX数式が検出されました。はてなブログでは数式表示がサポートされていないため、数式部分の変換は行われません。手動で調整してください。"

/-! ## Frontmatter (`convert_frontmatter`)

The YAML parse/serialize primitives are external library calls
(`yaml.safe_load` / `yaml.dump`), declared out of scope by the spec.
`parseHeader`/`serializeHeader` are modelled from the spec: an ordered
string-keyed map whose values are scalars or sequences of scalars, with an
order-preserving block-style serialization. -/

/-- A header field value: scalar string or sequence of strings. -/
inductive YamlValue where
  | scalar : String → YamlValue
  | seq : List String → YamlValue
deriving DecidableEq

/-- Fueled split on a (non-empty) separator string, Python `str.split`. -/
def splitSubF (sep : List Char) : Nat → List Char → List Char → List (List Char)
  | _, acc, [] => [acc.reverse]
  | 0, acc, cs => [acc.reverse ++ cs]
  | f + 1, acc, c :: cs =>
    if sep.isPrefixOf (c :: cs) then
      acc.reverse :: splitSubF sep f [] (cs.drop (sep.length - 1))
    else splitSubF sep f (c :: acc) cs

/-- Python `s.split(sep)` for a non-empty separator. -/
def splitSub (sep : List Char) (s : List Char) : List (List Char) :=
  splitSubF sep s.length [] s

/-- Modelled from the spec: one parsed header line `key: value`, where a
bracketed value `[a, b, c]` is a sequence. Part of the external
`parseHeader` primitive that is out of scope of the source. -/
def parseHeaderLine (l : List Char) : Option (String × YamlValue) :=
  match splitSub ": ".data l with
  | k :: v1 :: vs =>
    let v := joinSep ": ".data (v1 :: vs)
    if v.head? = some '[' ∧ v.getLast? = some ']' then
      some (⟨k⟩, YamlValue.seq
        ((splitSub ", ".data ((v.drop 1).dropLast)).map (fun x => (⟨x⟩ : String))))
    else some (⟨k⟩, YamlValue.scalar ⟨v⟩)
  | _ => none

/-- Modelled from the spec: the external header-parse primitive
`parseHeader(text) -> ordered map` (YAML parsing is out of scope of the
source; the spec directs to assume an ordered string-keyed map of scalars
and sequences). -/
def parseHeader (t : String) : List (String × YamlValue) :=
  (splitLines t.data).filterMap parseHeaderLine

/-- Modelled from the spec: block-style serialization of one header field,
part of the external `serializeHeader` primitive (out of scope of the
source; order-preserving, Unicode-preserving). -/
def serializeField : String × YamlValue → List Char
  | (k, YamlValue.scalar v) => k.data ++ ": ".data ++ v.data ++ ['\n']
  | (k, YamlValue.seq xs) =>
    k.data ++ [':', '\n'] ++
      (xs.map (fun x => "- ".data ++ x.data ++ ['\n'])).foldr (· ++ ·) []

/-- Modelled from the spec: the external header-serialize primitive
`serializeHeader(map) -> text`, block style, preserving field order. -/
def serializeHeader (fm : List (String × YamlValue)) : String :=
  ⟨(fm.map serializeField).foldr (· ++ ·) []⟩

/-- `', '.join(xs)`. -/
def joinCommaSp (xs : List String) : String :=
  ⟨joinSep ", ".data (xs.map String.data)⟩

/-- The map transformation inside `convert_frontmatter`: if a `tags` field
holds a list, replace it by the comma-space-joined scalar; everything else
is untouched. -/
def normalizeFrontmatter (fm : List (String × YamlValue)) :
    List (String × YamlValue) :=
  fm.map (fun kv =>
    if kv.1 = "tags" then
      match kv.2 with
      | YamlValue.seq xs => (kv.1, YamlValue.scalar (joinCommaSp xs))
      | v => (kv.1, v)
    else kv)

/-- `convert_frontmatter`: normalize the map, then serialize it. -/
def convert_frontmatter (fm : List (String × YamlValue)) : String :=
  serializeHeader (normalizeFrontmatter fm)

/-! ## Pipeline (`convert_content`, `convert_file`)

The warnings list is call-scoped state: both functions return the converted
text together with the list of warnings appended during the call. -/

/-- `convert_content`: check math (appending the advisory when found), then
strikethrough, lists, code blocks, images, in that order. -/
def convert_content (s : String) : String × List String :=
  let ws := if check_latex_math s then [latexWarning] else []
  (convert_images (convert_code_blocks (convert_lists (convert_strikethrough s))),
   ws)

/-- `convert_file` on the file's content: if the content starts with
`'---\n'`, split on `'---\n'` (maxsplit 2); with at least three parts,
convert frontmatter and body and reassemble, otherwise convert the whole
content as body. -/
def convert_file (content : String) : String × List String :=
  if "---\n".data.isPrefixOf content.data then
    match splitSub "---\n".data content.data with
    | _ :: fmText :: p2 :: ps =>
      let body : String := ⟨joinSep "---\n".data (p2 :: ps)⟩
      let cfm := convert_frontmatter (parseHeader ⟨fmText⟩)
      let res := convert_content body
      ("---\n" ++ cfm ++ "---\n" ++ res.1, res.2)
    | _ => convert_content content
  else convert_content content

/-! ## Basic lemmas: prefixes, substring search, takeWhile/dropWhile -/

theorem prefixOf_iff {l₁ l₂ : List Char} :
    l₁.isPrefixOf l₂ = true ↔ ∃ t, l₂ = l₁ ++ t := by
  induction l₁ generalizing l₂ with
  | nil => simp [List.isPrefixOf]
  | cons a as ih =>
    cases l₂ with
    | nil => simp [List.isPrefixOf]
    | cons b bs =>
      simp only [List.isPrefixOf, Bool.and_eq_true, beq_iff_eq, ih,
        List.cons_append, List.cons.injEq]
      constructor
      · rintro ⟨hab, t, ht⟩
        exact ⟨t, hab.symm, ht⟩
      · rintro ⟨t, hab, ht⟩
        exact ⟨hab.symm, t, ht⟩

theorem prefixOf_append (l t : List Char) : l.isPrefixOf (l ++ t) = true :=
  prefixOf_iff.2 ⟨t, rfl⟩

theorem prefixOf_length_le {l₁ l₂ : List Char} (h : l₁.isPrefixOf l₂ = true) :
    l₁.length ≤ l₂.length := by
  obtain ⟨t, rfl⟩ := prefixOf_iff.1 h
  simp

theorem dropWhile_length_le (p : Char → Bool) :
    ∀ l : List Char, (l.dropWhile p).length ≤ l.length
  | [] => Nat.le_refl _
  | c :: cs => by
    rw [List.dropWhile_cons]
    split
    · exact Nat.le_trans (dropWhile_length_le p cs) (Nat.le_succ _)
    · exact Nat.le_refl _

/-- `takeWhile`/`dropWhile` over a block of `p`-true elements followed by a
`p`-false element. -/
theorem takeWhile_dropWhile_append {p : Char → Bool} :
    ∀ {a : List Char} {x : Char} {y : List Char},
      (∀ c ∈ a, p c = true) → p x = false →
      (a ++ x :: y).takeWhile p = a ∧ (a ++ x :: y).dropWhile p = x :: y := by
  intro a
  induction a with
  | nil =>
    intro x y _ hx
    constructor
    · simp [List.takeWhile_cons, hx]
    · simp [List.dropWhile_cons, hx]
  | cons c a ih =>
    intro x y ha hx
    have hc : p c = true := ha c (by simp)
    have hrest : ∀ d ∈ a, p d = true := fun d hd => ha d (by simp [hd])
    have := ih (x := x) (y := y) hrest hx
    constructor
    · simp [List.takeWhile_cons, hc, this.1]
    · simp [List.dropWhile_cons, hc, this.2]

theorem containsSeq_of_prefixOf {p s : List Char}
    (h : p.isPrefixOf s = true) : containsSeq p s = true := by
  cases s with
  | nil =>
    obtain ⟨t, ht⟩ := prefixOf_iff.1 h
    have hp : p = [] := by
      cases p with
      | nil => rfl
      | cons a as => simp at ht
    simp [containsSeq, hp, List.isPrefixOf]
  | cons c cs => simp [containsSeq, h]

theorem containsSeq_append_right {p b : List Char} (a : List Char)
    (h : containsSeq p b = true) : containsSeq p (a ++ b) = true := by
  induction a with
  | nil => simpa using h
  | cons c a ih => simp [containsSeq, ih]

/-- A pattern occurring literally in the middle is found. -/
theorem containsSeq_sandwich (p a b : List Char) :
    containsSeq p (a ++ p ++ b) = true := by
  rw [List.append_assoc]
  exact containsSeq_append_right a (containsSeq_of_prefixOf (prefixOf_append _ _))

theorem containsSeq_eq_false_of_not_mem {c₀ : Char} {p' s : List Char}
    (h : c₀ ∉ s) : containsSeq (c₀ :: p') s = false := by
  induction s with
  | nil => simp [containsSeq, List.isPrefixOf]
  | cons c cs ih =>
    have hc : c₀ ≠ c := fun hh => h (hh ▸ List.mem_cons_self c cs)
    have hcs : c₀ ∉ cs := fun hh => h (List.mem_cons_of_mem c hh)
    have hpre : (c₀ :: p').isPrefixOf (c :: cs) = false := by
      rw [Bool.eq_false_iff]
      intro hh
      obtain ⟨t, ht⟩ := prefixOf_iff.1 hh
      simp only [List.cons_append, List.cons.injEq] at ht
      exact hc ht.1.symm
    simp [containsSeq, hpre, ih hcs]

theorem containsSeq_tail_false {p : List Char} {c : Char} {cs : List Char}
    (h : containsSeq p (c :: cs) = false) : containsSeq p cs = false := by
  simp only [containsSeq, Bool.or_eq_false_iff] at h
  exact h.2

theorem prefixOf_false_of_containsSeq_false {p : List Char} {c : Char}
    {cs : List Char} (h : containsSeq p (c :: cs) = false) :
    p.isPrefixOf (c :: cs) = false := by
  simp only [containsSeq, Bool.or_eq_false_iff] at h
  exact h.1

/-- Occurrence decomposition for an append: if the pattern occurs in
neither part and cannot straddle the boundary, it does not occur in the
append. -/
theorem not_containsSeq_append {p : List Char} :
    ∀ {a b : List Char}, containsSeq p a = false → containsSeq p b = false →
      (∀ i, 0 < i → i < p.length → ¬(p.take i <:+ a ∧ p.drop i <+: b)) →
      containsSeq p (a ++ b) = false := by
  intro a
  induction a with
  | nil =>
    intro b _ hb _
    simpa using hb
  | cons c a' ih =>
    intro b ha hb hc
    have ha' : containsSeq p a' = false := containsSeq_tail_false ha
    have hcross' : ∀ i, 0 < i → i < p.length → ¬(p.take i <:+ a' ∧ p.drop i <+: b) := by
      intro i h1 h2 hcontra
      refine hc i h1 h2 ⟨?_, hcontra.2⟩
      exact hcontra.1.trans (List.suffix_cons c a')
    have hrest : containsSeq p (a' ++ b) = false := ih ha' hb hcross'
    have hpre : p.isPrefixOf (c :: (a' ++ b)) = false := by
      rw [Bool.eq_false_iff]
      intro hh
      obtain ⟨t, ht⟩ := prefixOf_iff.1 hh
      have heq : (c :: a') ++ b = p ++ t := by simpa using ht
      rcases le_or_lt p.length (c :: a').length with hle | hlt
      · -- the occurrence would lie inside `c :: a'`
        have h2 : ((c :: a') ++ b).take p.length = p := by
          rw [heq, List.take_append_eq_append_take, Nat.sub_self]
          simp
        have h1 : ((c :: a') ++ b).take p.length = (c :: a').take p.length := by
          rw [List.take_append_eq_append_take, Nat.sub_eq_zero_of_le hle]
          simp
        have hpfx : p <+: c :: a' := by
          rw [← h2, h1]
          exact List.take_prefix _ _
        obtain ⟨u, hu⟩ := hpfx
        have hcon : containsSeq p (c :: a') = true :=
          containsSeq_of_prefixOf (prefixOf_iff.2 ⟨u, hu.symm⟩)
        rw [hcon] at ha
        exact absurd ha (by simp)
      · -- the occurrence would straddle the boundary
        apply hc (c :: a').length (by simp) hlt
        have h2t : ((c :: a') ++ b).take (c :: a').length = c :: a' := by
          rw [List.take_append_eq_append_take, Nat.sub_self]
          simp
        have h3t : p.take (c :: a').length = c :: a' := by
          rw [← h2t, heq, List.take_append_eq_append_take,
            Nat.sub_eq_zero_of_le (Nat.le_of_lt hlt)]
          simp
        have h2d : ((c :: a') ++ b).drop (c :: a').length = b := by
          rw [List.drop_append_eq_append_drop, Nat.sub_self]
          simp
        have h4d : ((c :: a') ++ b).drop (c :: a').length
            = p.drop (c :: a').length ++ t := by
          rw [heq, List.drop_append_eq_append_drop,
            Nat.sub_eq_zero_of_le (Nat.le_of_lt hlt)]
          simp
        constructor
        · rw [h3t]
        · exact ⟨t, by rw [← h4d]; exact h2d⟩
    simp [containsSeq, hpre, hrest]

/-! ## Lemmas about line splitting and joining -/

theorem splitLinesAux_cons (c : Char) (cs : List Char) :
    splitLinesAux (c :: cs) =
      if c = '\n' then ([], splitLines cs)
      else (c :: (splitLinesAux cs).1, (splitLinesAux cs).2) := rfl

theorem splitLines_cons (c : Char) (cs : List Char) :
    splitLines (c :: cs) =
      if c = '\n' then [] :: splitLines cs
      else (c :: (splitLinesAux cs).1) :: (splitLinesAux cs).2 := by
  by_cases h : c = '\n' <;> simp [splitLines, splitLinesAux_cons, h]

/-- Joining the split lines reconstructs the original text. -/
theorem joinSep_splitLines : ∀ cs : List Char,
    joinSep ['\n'] (splitLines cs) = cs := by
  intro cs
  induction cs with
  | nil => rfl
  | cons c cs ih =>
    rw [splitLines_cons]
    by_cases h : c = '\n'
    · subst h
      simp only [if_pos rfl]
      have hsl : splitLines cs = (splitLinesAux cs).1 :: (splitLinesAux cs).2 := rfl
      rw [hsl]
      rw [hsl] at ih
      simpa [joinSep] using ih
    · simp only [if_neg h]
      have hsl : splitLines cs = (splitLinesAux cs).1 :: (splitLinesAux cs).2 := rfl
      rw [hsl] at ih
      cases h2 : (splitLinesAux cs).2 with
      | nil =>
        rw [h2] at ih
        simp only [joinSep] at ih ⊢
        rw [ih]
      | cons l2 ls2 =>
        rw [h2] at ih
        simp only [joinSep] at ih ⊢
        simp only [List.append_assoc, List.cons_append, List.nil_append] at ih ⊢
        rw [ih]

/-- Splitting a newline-free line gives back just that line. -/
theorem splitLinesAux_no_newline {l : List Char} (h : '\n' ∉ l) :
    splitLinesAux l = (l, []) := by
  induction l with
  | nil => rfl
  | cons c cs ih =>
    have hc : c ≠ '\n' := fun hh => h (hh ▸ List.mem_cons_self c cs)
    have hcs : '\n' ∉ cs := fun hh => h (List.mem_cons_of_mem c hh)
    rw [splitLinesAux_cons, if_neg hc, ih hcs]

theorem splitLinesAux_line_append {l : List Char} (h : '\n' ∉ l)
    (r : List Char) :
    splitLinesAux (l ++ '\n' :: r) = (l, splitLines r) := by
  induction l with
  | nil => simp [splitLinesAux_cons]
  | cons c cs ih =>
    have hc : c ≠ '\n' := fun hh => h (hh ▸ List.mem_cons_self c cs)
    have hcs : '\n' ∉ cs := fun hh => h (List.mem_cons_of_mem c hh)
    rw [List.cons_append, splitLinesAux_cons, if_neg hc, ih hcs]

/-- Splitting a join of newline-free lines yields the lines back. -/
theorem splitLines_joinSep : ∀ ls : List (List Char), ls ≠ [] →
    (∀ l ∈ ls, '\n' ∉ l) → splitLines (joinSep ['\n'] ls) = ls := by
  intro ls
  induction ls with
  | nil => intro h; exact absurd rfl h
  | cons l ls ih =>
    intro _ hmem
    cases ls with
    | nil =>
      have : '\n' ∉ l := hmem l (by simp)
      simp [joinSep, splitLines, splitLinesAux_no_newline this]
    | cons l2 ls2 =>
      have hl : '\n' ∉ l := hmem l (by simp)
      have hrest : ∀ x ∈ l2 :: ls2, '\n' ∉ x := fun x hx =>
        hmem x (List.mem_cons_of_mem l hx)
      have hjoin : joinSep ['\n'] (l :: l2 :: ls2)
          = l ++ '\n' :: joinSep ['\n'] (l2 :: ls2) := by
        simp [joinSep]
      rw [hjoin, splitLines, splitLinesAux_line_append hl]
      have := ih (by simp) hrest
      rw [this]

/-! ## Lemmas about the generic substitution scanner -/

/-- Unfolding `scanF` one step when the pattern matches here. -/
theorem scanF_cons_some {t : List Char → Option (List Char × List Char)}
    {c : Char} {cs rep r : List Char} (h : t (c :: cs) = some (rep, r))
    (f : Nat) : scanF t (f + 1) (c :: cs) = rep ++ scanF t f r := by
  simp only [scanF, h]

/-- Unfolding `scanF` one step when the pattern does not match here. -/
theorem scanF_cons_none {t : List Char → Option (List Char × List Char)}
    {c : Char} {cs : List Char} (h : t (c :: cs) = none)
    (f : Nat) : scanF t (f + 1) (c :: cs) = c :: scanF t f cs := by
  simp only [scanF, h]

/-- The value of `scanF` does not depend on the fuel, once the fuel covers
the subject length (matches only consume forward). -/
theorem scanF_fuel {t : List Char → Option (List Char × List Char)}
    (ht : ∀ c cs rep r, t (c :: cs) = some (rep, r) → r.length ≤ cs.length) :
    ∀ f g cs, cs.length ≤ f → cs.length ≤ g → scanF t f cs = scanF t g cs := by
  intro f
  induction f with
  | zero =>
    intro g cs hf _
    have : cs = [] := List.eq_nil_of_length_eq_zero (Nat.le_zero.1 hf)
    subst this
    cases g <;> rfl
  | succ f ih =>
    intro g cs hf hg
    cases g with
    | zero =>
      have : cs = [] := List.eq_nil_of_length_eq_zero (Nat.le_zero.1 hg)
      subst this
      rfl
    | succ g =>
      cases cs with
      | nil => rfl
      | cons c cs' =>
        cases hmatch : t (c :: cs') with
        | some pr =>
          obtain ⟨rep, r⟩ := pr
          have hr : r.length ≤ cs'.length := ht c cs' rep r hmatch
          have h1 : r.length ≤ f := Nat.le_trans hr (Nat.le_of_succ_le_succ hf)
          have h2 : r.length ≤ g := Nat.le_trans hr (Nat.le_of_succ_le_succ hg)
          rw [scanF_cons_some hmatch, scanF_cons_some hmatch, ih g r h1 h2]
        | none =>
          rw [scanF_cons_none hmatch, scanF_cons_none hmatch,
            ih g cs' (Nat.le_of_succ_le_succ hf) (Nat.le_of_succ_le_succ hg)]

/-- Scanning a region where the pattern never matches passes it through. -/
theorem scanF_append {t : List Char → Option (List Char × List Char)} :
    ∀ A k : List Char,
      (∀ a₂, a₂ ≠ [] → a₂ <:+ A → t (a₂ ++ k) = none) →
      scanF t (A ++ k).length (A ++ k) = A ++ scanF t k.length k := by
  intro A
  induction A with
  | nil => intro k _; simp
  | cons c A' ih =>
    intro k hnone
    have hself : t (c :: (A' ++ k)) = none :=
      hnone (c :: A') (by simp) (List.suffix_refl _)
    have h2 : ((c :: A') ++ k).length = (A' ++ k).length + 1 := by simp
    calc scanF t ((c :: A') ++ k).length ((c :: A') ++ k)
        = scanF t ((A' ++ k).length + 1) (c :: (A' ++ k)) := by rw [h2]; rfl
      _ = c :: scanF t (A' ++ k).length (A' ++ k) := scanF_cons_none hself _
      _ = c :: (A' ++ scanF t k.length k) := by
          rw [ih k (fun a₂ hne hsuf => hnone a₂ hne (hsuf.trans (List.suffix_cons c A')))]
      _ = (c :: A') ++ scanF t k.length k := rfl

/-- If the pattern matches nowhere, the substitution is the identity. -/
theorem scanF_id_of_no_match {t : List Char → Option (List Char × List Char)} :
    ∀ cs : List Char, hasMatch t cs = false → scanF t cs.length cs = cs := by
  intro cs
  induction cs with
  | nil => intro _; rfl
  | cons c cs' ih =>
    intro h
    simp only [hasMatch, Bool.or_eq_false_iff] at h
    have hnone : t (c :: cs') = none := by
      cases hm : t (c :: cs') with
      | none => rfl
      | some pr => rw [hm] at h; simp at h
    have hstep : (c :: cs').length = cs'.length + 1 := rfl
    rw [hstep, scanF_cons_none hnone, ih h.2]

/-! ## Length bounds for the concrete matchers -/

theorem fsc_length : ∀ {l : List Char} {br : List Char × List Char},
    fsc l = some br → br.2.length + 3 ≤ l.length := by
  intro l
  induction l with
  | nil => intro br h; simp [fsc] at h
  | cons c cs ih =>
    intro br h
    simp only [fsc] at h
    split_ifs at h with h1 h2
    · -- closing pair right after the first body character
      have hlen : 2 ≤ cs.length := by
        have := prefixOf_length_le h2
        simpa using this
      simp only [Option.some.injEq] at h
      rw [← h]
      simp only [List.length_drop, List.length_cons]
      omega
    · -- recursive case
      cases hm : fsc cs with
      | none => rw [hm] at h; simp at h
      | some br' =>
        rw [hm] at h
        simp only [Option.some.injEq] at h
        have hrec := ih hm
        rw [← h]
        simp only [List.length_cons]
        omega

theorem strikeTry_length :
    ∀ c cs rep r, strikeTry (c :: cs) = some (rep, r) → r.length ≤ cs.length := by
  intro c cs rep r h
  cases cs with
  | nil => simp [strikeTry] at h
  | cons c2 rest =>
    simp only [strikeTry] at h
    split_ifs at h with h1
    · cases hm : fsc rest with
      | none => rw [hm] at h; simp at h
      | some br =>
        rw [hm] at h
        simp only [Option.some.injEq, Prod.mk.injEq] at h
        have hrec := fsc_length hm
        rw [← h.2]
        simp only [List.length_cons]
        omega

theorem findClose_length : ∀ {l : List Char} {br : List Char × List Char},
    findClose l = some br → br.2.length + 3 ≤ l.length := by
  intro l
  induction l with
  | nil => intro br h; simp [findClose] at h
  | cons c cs ih =>
    intro br h
    simp only [findClose] at h
    split_ifs at h with h1
    · have hlen : 3 ≤ (c :: cs).length := prefixOf_length_le h1
      simp only [Option.some.injEq] at h
      rw [← h]
      simp only [List.length_drop, List.length_cons] at *
      omega
    · cases hm : findClose cs with
      | none => rw [hm] at h; simp at h
      | some br' =>
        rw [hm] at h
        simp only [Option.some.injEq] at h
        have hrec := ih hm
        rw [← h]
        simp only [List.length_cons]
        omega

theorem cbTry_length :
    ∀ c cs rep r, cbTry (c :: cs) = some (rep, r) → r.length ≤ cs.length := by
  intro c cs rep r h
  simp only [cbTry] at h
  split_ifs at h with hpre
  split at h
  next t2 heq =>
    split at h
    next br heq2 =>
      simp only [Option.some.injEq, Prod.mk.injEq] at h
      have l1 : ('\n' :: t2).length ≤ ((c :: cs).drop 3).length := by
        rw [← heq]
        exact dropWhile_length_le _ _
      have l2 : ((c :: cs).drop 3).length = (c :: cs).length - 3 :=
        List.length_drop _ _
      have l3 := findClose_length heq2
      rw [← h.2]
      simp only [List.length_cons] at *
      omega
    next => simp at h
  next => simp at h

theorem guardPrefix_length {p l r : List Char} (h : guardPrefix p l = some r) :
    r.length ≤ l.length := by
  simp only [guardPrefix] at h
  split_ifs at h with h1
  simp only [Option.some.injEq] at h
  rw [← h]
  simp

theorem guardSpaces_length {l r : List Char} (h : guardSpaces l = some r) :
    r.length + 1 ≤ l.length := by
  simp only [guardSpaces] at h
  split_ifs at h with h1
  simp only [Option.some.injEq] at h
  cases l with
  | nil => simp at h1
  | cons x xs =>
    by_cases hx : pySpace x = true
    · rw [List.dropWhile_cons, if_pos hx] at h
      have := dropWhile_length_le pySpace xs
      rw [← h]
      simp only [List.length_cons]
      omega
    · rw [List.takeWhile_cons, if_neg hx] at h1
      exact absurd rfl h1

theorem scanQuote_length {l : List Char} {vr : List Char × List Char}
    (h : scanQuote l = some vr) : vr.2.length + 1 ≤ l.length := by
  simp only [scanQuote] at h
  split at h
  next rest heq =>
    simp only [Option.some.injEq] at h
    have h1 : ('"' :: rest).length ≤ l.length := by
      rw [← heq]
      exact dropWhile_length_le _ _
    rw [← h]
    simp only [List.length_cons] at h1 ⊢
    omega
  next => simp at h

theorem scanToGt_length {l r : List Char} (h : scanToGt l = some r) :
    r.length + 1 ≤ l.length := by
  simp only [scanToGt] at h
  split at h
  next rest heq =>
    simp only [Option.some.injEq] at h
    have h1 : ('>' :: rest).length ≤ l.length := by
      rw [← heq]
      exact dropWhile_length_le _ _
    rw [← h]
    simp only [List.length_cons] at h1 ⊢
    omega
  next => simp at h

theorem imgTry_length :
    ∀ c cs rep r, imgTry (c :: cs) = some (rep, r) → r.length ≤ cs.length := by
  intro c cs rep r h
  simp only [imgTry, Option.bind_eq_some] at h
  obtain ⟨a, ha, h⟩ := h
  obtain ⟨b, hb, h⟩ := h
  obtain ⟨c', hc', h⟩ := h
  obtain ⟨sr, hsr, h⟩ := h
  split_ifs at h with hne
  simp only [Option.bind_eq_some] at h
  obtain ⟨d, hd, h⟩ := h
  obtain ⟨e, he, h⟩ := h
  obtain ⟨ar, har, h⟩ := h
  obtain ⟨rest, hrest, h⟩ := h
  simp only [Option.some.injEq, Prod.mk.injEq] at h
  have l1 := guardPrefix_length ha
  have l2 := guardSpaces_length hb
  have l3 := guardPrefix_length hc'
  have l4 := scanQuote_length hsr
  have l5 := guardSpaces_length hd
  have l6 := guardPrefix_length he
  have l7 := scanQuote_length har
  have l8 := scanToGt_length hrest
  rw [← h.2]
  simp only [List.length_cons] at *
  omega

/-! ## Match and no-match characterizations of the concrete matchers -/

theorem prefixOf_head {a c : Char} {p cs : List Char}
    (h : (a :: p).isPrefixOf (c :: cs) = true) : a = c := by
  obtain ⟨t, ht⟩ := prefixOf_iff.1 h
  simp only [List.cons_append, List.cons.injEq] at ht
  exact ht.1.symm

theorem fsc_cons (c : Char) (cs : List Char) :
    fsc (c :: cs) =
      if c = '\n' then none
      else if ['~', '~'].isPrefixOf cs then some ([c], cs.drop 2)
      else
        match fsc cs with
        | some br => some (c :: br.1, br.2)
        | none => none := rfl

theorem findClose_cons (c : Char) (cs : List Char) :
    findClose (c :: cs) =
      if ['`', '`', '`'].isPrefixOf (c :: cs) then some ([], cs.drop 2)
      else
        match findClose cs with
        | some br => some (c :: br.1, br.2)
        | none => none := rfl

theorem fsc_none_of_no_tilde : ∀ {D : List Char},
    (∀ c ∈ D, c ≠ '~') → fsc D = none := by
  intro D
  induction D with
  | nil => intro _; rfl
  | cons c cs ih =>
    intro h
    simp only [fsc]
    split_ifs with h1 h2
    · rfl
    · exfalso
      obtain ⟨t, ht⟩ := prefixOf_iff.1 h2
      have hmem : '~' ∈ cs := by rw [ht]; simp
      exact h '~' (List.mem_cons_of_mem c hmem) rfl
    · rw [ih (fun x hx => h x (List.mem_cons_of_mem c hx))]

/-- The lazy body scan finds exactly the written body when the body is
non-empty, newline-free, has no internal `~~`, and does not end in `~`. -/
theorem fsc_at : ∀ {X : List Char} (B : List Char), X ≠ [] → '\n' ∉ X →
    containsSeq ['~', '~'] X = false → X.getLast? ≠ some '~' →
    fsc (X ++ '~' :: '~' :: B) = some (X, B) := by
  intro X
  induction X with
  | nil => intro B h _ _ _; exact absurd rfl h
  | cons x X' ih =>
    intro B _ hnl hcon hlast
    have hx : x ≠ '\n' := fun hh => hnl (hh ▸ List.mem_cons_self x X')
    cases X' with
    | nil =>
      show fsc (x :: '~' :: '~' :: B) = some ([x], B)
      rw [fsc_cons, if_neg hx,
        if_pos (show (['~', '~'] : List Char).isPrefixOf ('~' :: '~' :: B) = true from
          prefixOf_iff.2 ⟨B, rfl⟩)]
      rfl
    | cons y X'' =>
      have hpre : (['~', '~'] : List Char).isPrefixOf
          ((y :: X'') ++ '~' :: '~' :: B) = false := by
        rw [Bool.eq_false_iff]
        intro hh
        obtain ⟨t, ht⟩ := prefixOf_iff.1 hh
        cases X'' with
        | nil =>
          simp only [List.cons_append, List.nil_append, List.cons.injEq] at ht
          apply hlast
          simp [List.getLast?_cons_cons, ht.1]
        | cons z X3 =>
          simp only [List.cons_append, List.cons.injEq] at ht
          have hocc : containsSeq ['~', '~'] (x :: y :: z :: X3) = true := by
            have hpref : (['~', '~'] : List Char).isPrefixOf (y :: z :: X3) = true := by
              apply prefixOf_iff.2
              exact ⟨X3, by simp [ht.1, ht.2.1]⟩
            simp [containsSeq, hpref]
          rw [hocc] at hcon
          exact absurd hcon (by simp)
      have hX'last : (y :: X'').getLast? ≠ some '~' := by
        rw [← List.getLast?_cons_cons (a := x)]
        exact hlast
      have hX'nl : '\n' ∉ y :: X'' := fun hh => hnl (List.mem_cons_of_mem x hh)
      have hX'con : containsSeq ['~', '~'] (y :: X'') = false :=
        containsSeq_tail_false hcon
      rw [show (x :: y :: X'') ++ '~' :: '~' :: B
          = x :: ((y :: X'') ++ '~' :: '~' :: B) from rfl, fsc_cons]
      rw [if_neg hx, if_neg (by rw [hpre]; simp)]
      rw [ih B (by simp) hX'nl hX'con hX'last]

theorem strikeTry_none_of_head {c : Char} {cs : List Char} (h : c ≠ '~') :
    strikeTry (c :: cs) = none := by
  cases cs with
  | nil => rfl
  | cons c2 rest =>
    simp only [strikeTry]
    rw [if_neg (fun hh => h hh.1)]

theorem hasMatch_strikeTry_no_tilde : ∀ {s : List Char},
    (∀ c ∈ s, c ≠ '~') → hasMatch strikeTry s = false := by
  intro s
  induction s with
  | nil => intro _; rfl
  | cons c cs ih =>
    intro h
    have hc : c ≠ '~' := h c (List.mem_cons_self c cs)
    simp only [hasMatch, strikeTry_none_of_head hc, Option.isSome_none,
      Bool.false_or]
    exact ih (fun x hx => h x (List.mem_cons_of_mem c hx))

theorem findClose_none : ∀ {l : List Char},
    containsSeq ['`', '`', '`'] l = false → findClose l = none := by
  intro l
  induction l with
  | nil => intro _; rfl
  | cons c cs ih =>
    intro h
    simp only [findClose]
    rw [if_neg (by simp [prefixOf_false_of_containsSeq_false h])]
    rw [ih (containsSeq_tail_false h)]

/-- The closer scan finds exactly the written closer when the body has no
internal triple backtick and does not end in a backtick. -/
theorem findClose_at : ∀ {body : List Char} (rest : List Char),
    containsSeq ['`', '`', '`'] body = false → body.getLast? ≠ some '`' →
    findClose (body ++ '`' :: '`' :: '`' :: rest) = some (body, rest) := by
  intro body
  induction body with
  | nil =>
    intro rest _ _
    show findClose ('`' :: '`' :: '`' :: rest) = some ([], rest)
    rw [findClose_cons,
      if_pos (show (['`', '`', '`'] : List Char).isPrefixOf ('`' :: '`' :: '`' :: rest) = true
        from prefixOf_iff.2 ⟨rest, rfl⟩)]
    rfl
  | cons c body' ih =>
    intro rest hcon hlast
    have hpre : (['`', '`', '`'] : List Char).isPrefixOf
        (c :: (body' ++ '`' :: '`' :: '`' :: rest)) = false := by
      rw [Bool.eq_false_iff]
      intro hh
      obtain ⟨t, ht⟩ := prefixOf_iff.1 hh
      cases body' with
      | nil =>
        simp only [List.nil_append, List.cons_append, List.cons.injEq] at ht
        exact hlast (by simp [ht.1])
      | cons y body'' =>
        cases body'' with
        | nil =>
          simp only [List.cons_append, List.nil_append, List.cons.injEq] at ht
          apply hlast
          simp [List.getLast?_cons_cons, ht.2.1]
        | cons z b3 =>
          simp only [List.cons_append, List.cons.injEq] at ht
          have hocc : containsSeq ['`', '`', '`'] (c :: y :: z :: b3) = true := by
            apply containsSeq_of_prefixOf
            apply prefixOf_iff.2
            exact ⟨b3, by simp [ht.1, ht.2.1, ht.2.2.1]⟩
          rw [hocc] at hcon
          exact absurd hcon (by simp)
    have hlast' : body'.getLast? ≠ some '`' := by
      cases body' with
      | nil => simp
      | cons y body'' =>
        rw [← List.getLast?_cons_cons (a := c)]
        exact hlast
    rw [show (c :: body') ++ '`' :: '`' :: '`' :: rest
        = c :: (body' ++ '`' :: '`' :: '`' :: rest) from rfl, findClose_cons]
    rw [if_neg (by rw [hpre]; simp)]
    rw [ih rest (containsSeq_tail_false hcon) hlast']

theorem cbTry_none_of_no_prefix {cs : List Char}
    (h : (['`', '`', '`'] : List Char).isPrefixOf cs = false) :
    cbTry cs = none := by
  simp only [cbTry]
  rw [if_neg (by simp [h])]

theorem hasMatch_cbTry_of_not_contains : ∀ {s : List Char},
    containsSeq ['`', '`', '`'] s = false → hasMatch cbTry s = false := by
  intro s
  induction s with
  | nil => intro _; rfl
  | cons c cs ih =>
    intro h
    simp only [hasMatch,
      cbTry_none_of_no_prefix (prefixOf_false_of_containsSeq_false h),
      Option.isSome_none, Bool.false_or]
    exact ih (containsSeq_tail_false h)

theorem imgTry_none_of_head {c : Char} {cs : List Char} (h : c ≠ '<') :
    imgTry (c :: cs) = none := by
  simp only [imgTry, guardPrefix]
  rw [if_neg]
  · rfl
  · intro hh
    exact h (prefixOf_head hh).symm

theorem hasMatch_imgTry_no_lt : ∀ {s : List Char},
    (∀ c ∈ s, c ≠ '<') → hasMatch imgTry s = false := by
  intro s
  induction s with
  | nil => intro _; rfl
  | cons c cs ih =>
    intro h
    have hc : c ≠ '<' := h c (List.mem_cons_self c cs)
    simp only [hasMatch, imgTry_none_of_head hc, Option.isSome_none,
      Bool.false_or]
    exact ih (fun x hx => h x (List.mem_cons_of_mem c hx))

/-! ## Evaluation of the image pipeline on a well-formed element -/

theorem guardPrefix_at (p t : List Char) : guardPrefix p (p ++ t) = some t := by
  simp [guardPrefix, prefixOf_append, List.drop_left]

theorem guardSpaces_one {x : Char} {l : List Char} (hx : pySpace x = false) :
    guardSpaces (' ' :: x :: l) = some (x :: l) := by
  have hsp : pySpace ' ' = true := rfl
  simp [guardSpaces, List.takeWhile_cons, List.dropWhile_cons, hx, hsp]

theorem scanQuote_at {v : List Char} (rest : List Char)
    (h : ∀ c ∈ v, c ≠ '"') : scanQuote (v ++ '"' :: rest) = some (v, rest) := by
  have hq := takeWhile_dropWhile_append (p := fun c => c ≠ '"') (a := v)
    (x := '"') (y := rest) (fun c hc => by simp [h c hc]) (by simp)
  simp only [scanQuote, hq.2, hq.1]

theorem scanToGt_at {e : List Char} (rest : List Char)
    (h : ∀ c ∈ e, c ≠ '>') : scanToGt (e ++ '>' :: rest) = some rest := by
  have hq := takeWhile_dropWhile_append (p := fun c => c ≠ '>') (a := e)
    (x := '>') (y := rest) (fun c hc => by simp [h c hc]) (by simp)
  simp only [scanToGt, hq.2]

/-- The image matcher fires on a well-formed element (`src` before `alt`,
double-quoted, `src` non-empty, extra attributes before the close) and
produces the bracket-image replacement and the text after the element. -/
theorem imgTry_at {src alt extra rest : List Char}
    (h1 : src ≠ []) (h2 : ∀ c ∈ src, c ≠ '"')
    (h3 : ∀ c ∈ alt, c ≠ '"') (h4 : ∀ c ∈ extra, c ≠ '>') :
    imgTry ("<img src=\"".data ++ src ++ "\" alt=\"".data ++ alt ++ "\"".data
        ++ extra ++ ">".data ++ rest)
      = some ("![".data ++ alt ++ "](".data ++ src ++ ")".data, rest) := by
  have hg1 : guardPrefix "<img".data
      ("<img src=\"".data ++ src ++ "\" alt=\"".data ++ alt ++ "\"".data
        ++ extra ++ ">".data ++ rest)
      = some (" src=\"".data ++ (src ++ '"' :: (" alt=\"".data
          ++ (alt ++ '"' :: (extra ++ '>' :: rest))))) := by
    rw [show "<img src=\"".data ++ src ++ "\" alt=\"".data ++ alt ++ "\"".data
        ++ extra ++ ">".data ++ rest
        = "<img".data ++ (" src=\"".data ++ (src ++ '"' :: (" alt=\"".data
            ++ (alt ++ '"' :: (extra ++ '>' :: rest))))) from by
      simp only [List.append_assoc]
      rfl]
    exact guardPrefix_at _ _
  have hg2 : guardSpaces (" src=\"".data ++ (src ++ '"' :: (" alt=\"".data
        ++ (alt ++ '"' :: (extra ++ '>' :: rest)))))
      = some ("src=\"".data ++ (src ++ '"' :: (" alt=\"".data
          ++ (alt ++ '"' :: (extra ++ '>' :: rest))))) :=
    guardSpaces_one rfl
  have hg3 : guardPrefix "src=\"".data ("src=\"".data ++ (src ++ '"' :: (" alt=\"".data
        ++ (alt ++ '"' :: (extra ++ '>' :: rest)))))
      = some (src ++ '"' :: (" alt=\"".data ++ (alt ++ '"' :: (extra ++ '>' :: rest)))) :=
    guardPrefix_at _ _
  have hg4 : scanQuote (src ++ '"' :: (" alt=\"".data
        ++ (alt ++ '"' :: (extra ++ '>' :: rest))))
      = some (src, " alt=\"".data ++ (alt ++ '"' :: (extra ++ '>' :: rest))) :=
    scanQuote_at _ h2
  have hg5 : guardSpaces (" alt=\"".data ++ (alt ++ '"' :: (extra ++ '>' :: rest)))
      = some ("alt=\"".data ++ (alt ++ '"' :: (extra ++ '>' :: rest))) :=
    guardSpaces_one rfl
  have hg6 : guardPrefix "alt=\"".data ("alt=\"".data
        ++ (alt ++ '"' :: (extra ++ '>' :: rest)))
      = some (alt ++ '"' :: (extra ++ '>' :: rest)) :=
    guardPrefix_at _ _
  have hg7 : scanQuote (alt ++ '"' :: (extra ++ '>' :: rest))
      = some (alt, extra ++ '>' :: rest) :=
    scanQuote_at _ h3
  have hg8 : scanToGt (extra ++ '>' :: rest) = some rest :=
    scanToGt_at _ h4
  simp only [imgTry, hg1, Option.some_bind, hg2, hg3, hg4, hg5, hg6, hg7, hg8,
    if_neg h1]

/-! ## Lemmas about `convert_lists` -/

theorem dropWhile_spaces_cons {m : Nat} {x : Char} {y : List Char}
    (hx : pySpace x = false) :
    (List.replicate m ' ' ++ x :: y).dropWhile pySpace = x :: y :=
  (takeWhile_dropWhile_append
    (fun c hc => by rw [List.eq_of_mem_replicate hc]; rfl) hx).2

theorem length_replicate_append (m : Nat) (x : Char) (y : List Char) :
    (List.replicate m ' ' ++ x :: y).length - (x :: y).length = m := by
  simp

/-- Processing a flat bullet line while an unordered container at the same
indent is open emits just the item. -/
theorem processListLine_bullet_flat (t : List Char) :
    processListLine ({ in_ul := true, in_ol := false, indent_level := 0 } : LState)
      ('-' :: ' ' :: t)
      = ([sp 1 ++ "<li> ".data ++ t ++ " </li>".data],
         ({ in_ul := true, in_ol := false, indent_level := 0 } : LState)) := by
  have hstr : ('-' :: ' ' :: t).dropWhile pySpace = '-' :: ' ' :: t := by
    rw [List.dropWhile_cons, if_neg (by simp [pySpace])]
  have hb : isBulletMarked ('-' :: ' ' :: t) = true :=
    prefixOf_iff.2 ⟨t, rfl⟩
  simp only [processListLine, hstr, hb]
  simp [Nat.sub_self]

/-- Processing a non-list line from the closed state emits the line
verbatim and stays in the closed state. -/
theorem processListLine_other {line : List Char} (h : isListLine line = false) :
    processListLine ({ in_ul := false, in_ol := false, indent_level := 0 } : LState)
      line
      = ([line], ({ in_ul := false, in_ol := false, indent_level := 0 } : LState)) := by
  simp only [isListLine, Bool.or_eq_false_iff] at h
  have hb : isBulletMarked (line.dropWhile pySpace) = false := h.1
  have ho : orderedMarkerLen (line.dropWhile pySpace) = none :=
    Option.not_isSome_iff_eq_none.1 (by simp [h.2])
  simp only [processListLine, hb, ho]
  simp

/-- Folding the loop over flat bullet lines from the open-unordered state
appends one item per line and preserves the state. -/
theorem foldl_bullets : ∀ (ts : List String) (acc : List (List Char)),
    List.foldl listStep
      (acc, ({ in_ul := true, in_ol := false, indent_level := 0 } : LState))
      (ts.map (fun t => '-' :: ' ' :: t.data))
    = (acc ++ ts.map (fun t => sp 1 ++ "<li> ".data ++ t.data ++ " </li>".data),
       ({ in_ul := true, in_ol := false, indent_level := 0 } : LState)) := by
  intro ts
  induction ts with
  | nil => intro acc; simp
  | cons t ts ih =>
    intro acc
    simp only [List.map_cons, List.foldl_cons]
    rw [show listStep
        (acc, ({ in_ul := true, in_ol := false, indent_level := 0 } : LState))
        ('-' :: ' ' :: t.data)
        = (acc ++ [sp 1 ++ "<li> ".data ++ t.data ++ " </li>".data],
           ({ in_ul := true, in_ol := false, indent_level := 0 } : LState)) from by
      simp [listStep, processListLine_bullet_flat]]
    rw [ih]
    simp

/-- Folding the loop over non-list lines from the closed state emits the
lines verbatim. -/
theorem foldl_other : ∀ (lines : List (List Char)) (acc : List (List Char)),
    (∀ l ∈ lines, isListLine l = false) →
    List.foldl listStep
      (acc, ({ in_ul := false, in_ol := false, indent_level := 0 } : LState))
      lines
    = (acc ++ lines,
       ({ in_ul := false, in_ol := false, indent_level := 0 } : LState)) := by
  intro lines
  induction lines with
  | nil => intro acc _; simp
  | cons l lines ih =>
    intro acc h
    simp only [List.foldl_cons]
    rw [show listStep
        (acc, ({ in_ul := false, in_ol := false, indent_level := 0 } : LState)) l
        = (acc ++ [l],
           ({ in_ul := false, in_ol := false, indent_level := 0 } : LState)) from by
      simp [listStep, processListLine_other (h l (List.mem_cons_self l lines))]]
    rw [ih (acc ++ [l]) (fun x hx => h x (List.mem_cons_of_mem l hx))]
    simp

/-- `convert_lists` passes a document with no recognized list lines through
unchanged. -/
theorem convert_lists_id {s : String}
    (h : ∀ l ∈ splitLines s.data, isListLine l = false) :
    convert_lists s = s := by
  have hcore : convert_listsCore (splitLines s.data) = splitLines s.data := by
    simp only [convert_listsCore]
    rw [foldl_other (splitLines s.data) [] h]
    simp
  have : convert_lists s = ⟨joinSep ['\n'] (splitLines s.data)⟩ := by
    simp only [convert_lists, hcore]
  rw [this, joinSep_splitLines]

/-! ## Lemmas about `splitSub` (Python `str.split`) -/

theorem splitSubF_nil (sep : List Char) (f : Nat) (acc : List Char) :
    splitSubF sep f acc [] = [acc.reverse] := by
  cases f <;> rfl

theorem splitSubF_cons (sep : List Char) (f : Nat) (acc : List Char)
    (c : Char) (cs : List Char) :
    splitSubF sep (f + 1) acc (c :: cs) =
      if sep.isPrefixOf (c :: cs) then
        acc.reverse :: splitSubF sep f [] (cs.drop (sep.length - 1))
      else splitSubF sep f (c :: acc) cs := rfl

theorem splitSubF_fuel (sep : List Char) :
    ∀ f g acc s, s.length ≤ f → s.length ≤ g →
      splitSubF sep f acc s = splitSubF sep g acc s := by
  intro f
  induction f with
  | zero =>
    intro g acc s hf _
    have : s = [] := List.eq_nil_of_length_eq_zero (Nat.le_zero.1 hf)
    subst this
    rw [splitSubF_nil, splitSubF_nil]
  | succ f ih =>
    intro g acc s hf hg
    cases g with
    | zero =>
      have : s = [] := List.eq_nil_of_length_eq_zero (Nat.le_zero.1 hg)
      subst this
      rw [splitSubF_nil, splitSubF_nil]
    | succ g =>
      cases s with
      | nil => rw [splitSubF_nil, splitSubF_nil]
      | cons c cs =>
        rw [splitSubF_cons, splitSubF_cons]
        by_cases hpre : sep.isPrefixOf (c :: cs) = true
        · rw [if_pos hpre, if_pos hpre]
          have hd : (cs.drop (sep.length - 1)).length ≤ cs.length := by
            rw [List.length_drop]
            omega
          rw [ih g [] (cs.drop (sep.length - 1))
            (Nat.le_trans hd (Nat.le_of_succ_le_succ hf))
            (Nat.le_trans hd (Nat.le_of_succ_le_succ hg))]
        · rw [if_neg hpre, if_neg hpre,
            ih g (c :: acc) cs (Nat.le_of_succ_le_succ hf) (Nat.le_of_succ_le_succ hg)]

theorem splitSubF_ne_nil (sep : List Char) :
    ∀ f acc s, splitSubF sep f acc s ≠ [] := by
  intro f
  induction f with
  | zero =>
    intro acc s
    cases s <;> simp [splitSubF]
  | succ f ih =>
    intro acc s
    cases s with
    | nil => rw [splitSubF_nil]; simp
    | cons c cs =>
      rw [splitSubF_cons]
      by_cases hpre : sep.isPrefixOf (c :: cs) = true
      · rw [if_pos hpre]; simp
      · rw [if_neg hpre]; exact ih (c :: acc) cs

/-- Joining the split parts with the separator reconstructs the input. -/
theorem joinSep_splitSubF (sep : List Char) (hsep : sep ≠ []) :
    ∀ f acc s, s.length ≤ f →
      joinSep sep (splitSubF sep f acc s) = acc.reverse ++ s := by
  intro f
  induction f with
  | zero =>
    intro acc s hf
    have : s = [] := List.eq_nil_of_length_eq_zero (Nat.le_zero.1 hf)
    subst this
    rw [splitSubF_nil]
    simp [joinSep]
  | succ f ih =>
    intro acc s hf
    cases s with
    | nil =>
      rw [splitSubF_nil]
      simp [joinSep]
    | cons c cs =>
      rw [splitSubF_cons]
      by_cases hpre : sep.isPrefixOf (c :: cs) = true
      · rw [if_pos hpre]
        obtain ⟨r1, rs, hr⟩ :=
          List.exists_cons_of_ne_nil (splitSubF_ne_nil sep f [] (cs.drop (sep.length - 1)))
        rw [hr]
        have hjoin : joinSep sep (acc.reverse :: r1 :: rs)
            = acc.reverse ++ sep ++ joinSep sep (r1 :: rs) := by
          simp [joinSep]
        rw [hjoin, ← hr]
        have hd : (cs.drop (sep.length - 1)).length ≤ f := by
          rw [List.length_drop]
          have := Nat.le_of_succ_le_succ hf
          omega
        rw [ih [] (cs.drop (sep.length - 1)) hd]
        obtain ⟨t, ht⟩ := prefixOf_iff.1 hpre
        have hsep1 : 1 ≤ sep.length := by
          cases sep with
          | nil => exact absurd rfl hsep
          | cons a as => simp
        have hts : t = cs.drop (sep.length - 1) := by
          have : ((c :: cs).drop sep.length) = t := by
            rw [ht, List.drop_left]
          rw [← this]
          cases sep with
          | nil => exact absurd rfl hsep
          | cons a as => simp
        rw [List.reverse_nil, List.nil_append, List.append_assoc, ← hts, ← ht]
      · rw [if_neg hpre, ih (c :: acc) cs (Nat.le_of_succ_le_succ hf)]
        simp

/-- Number of split parts = number of separator occurrences + 1. -/
theorem splitSubF_length_count (sep : List Char) :
    ∀ f acc s, s.length ≤ f →
      (splitSubF sep f acc s).length = countSeqF sep f s + 1 := by
  intro f
  induction f with
  | zero =>
    intro acc s hf
    have : s = [] := List.eq_nil_of_length_eq_zero (Nat.le_zero.1 hf)
    subst this
    rw [splitSubF_nil]
    simp [countSeqF]
  | succ f ih =>
    intro acc s hf
    cases s with
    | nil =>
      rw [splitSubF_nil]
      simp [countSeqF]
    | cons c cs =>
      rw [splitSubF_cons]
      by_cases hpre : sep.isPrefixOf (c :: cs) = true
      · rw [if_pos hpre]
        have hd : (cs.drop (sep.length - 1)).length ≤ f := by
          rw [List.length_drop]
          have := Nat.le_of_succ_le_succ hf
          omega
        simp only [List.length_cons, ih [] _ hd, countSeqF, if_pos hpre]
      · rw [if_neg hpre]
        simp only [ih (c :: acc) cs (Nat.le_of_succ_le_succ hf), countSeqF,
          if_neg hpre]

/-- Scanning past a region with no `---` finds the separator exactly at the
written position. -/
theorem splitSubF_fm_through :
    ∀ {h : List Char} {acc b : List Char} {f : Nat},
      (h ++ '-' :: '-' :: '-' :: '\n' :: b).length ≤ f →
      containsSeq ['-', '-', '-'] h = false →
      splitSubF "---\n".data f acc (h ++ '-' :: '-' :: '-' :: '\n' :: b)
        = (acc.reverse ++ h) :: splitSubF "---\n".data b.length [] b := by
  intro h
  induction h with
  | nil =>
    intro acc b f hf _
    cases f with
    | zero => simp at hf
    | succ f =>
      simp only [List.nil_append] at hf ⊢
      rw [splitSubF_cons,
        if_pos (show ("---\n".data).isPrefixOf ('-' :: '-' :: '-' :: '\n' :: b) = true
          from prefixOf_iff.2 ⟨b, rfl⟩)]
      have hfb : b.length ≤ f := by
        simp only [List.length_cons] at hf
        omega
      rw [show (('-' :: '-' :: '\n' :: b).drop ("---\n".data.length - 1)) = b from rfl]
      rw [splitSubF_fuel "---\n".data f b.length [] b hfb (Nat.le_refl _)]
      simp
  | cons c h' ih =>
    intro acc b f hf hcon
    cases f with
    | zero => simp at hf
    | succ f =>
      have hpre : ("---\n".data).isPrefixOf
          (c :: (h' ++ '-' :: '-' :: '-' :: '\n' :: b)) = false := by
        rw [Bool.eq_false_iff]
        intro hh
        obtain ⟨t, ht⟩ := prefixOf_iff.1 hh
        cases h' with
        | nil => simp at ht
        | cons x h'' =>
          cases h'' with
          | nil => simp at ht
          | cons y h3 =>
            cases h3 with
            | nil => simp at ht
            | cons z h4 =>
              simp only [List.cons_append, List.cons.injEq] at ht
              have hocc : containsSeq ['-', '-', '-'] (c :: x :: y :: z :: h4) = true := by
                apply containsSeq_of_prefixOf
                apply prefixOf_iff.2
                exact ⟨z :: h4, by simp [ht.1, ht.2.1, ht.2.2.1]⟩
              rw [hocc] at hcon
              exact absurd hcon (by simp)
      rw [show (c :: h') ++ '-' :: '-' :: '-' :: '\n' :: b
          = c :: (h' ++ '-' :: '-' :: '-' :: '\n' :: b) from rfl, splitSubF_cons,
        if_neg (by rw [hpre]; simp)]
      have hf' : (h' ++ '-' :: '-' :: '-' :: '\n' :: b).length ≤ f := by
        simp only [List.length_cons, List.length_append] at hf ⊢
        omega
      rw [ih hf' (containsSeq_tail_false hcon)]
      simp

/-! ## Lemmas about the frontmatter transformation -/

theorem str_append_assoc : ∀ a b c : String, a ++ b ++ c = a ++ (b ++ c) := by
  intro ⟨x⟩ ⟨y⟩ ⟨z⟩
  exact congrArg String.mk (List.append_assoc x y z)

theorem concatFoldr_append (xs ys : List (List Char)) :
    (xs ++ ys).foldr (· ++ ·) ([] : List Char)
      = xs.foldr (· ++ ·) [] ++ ys.foldr (· ++ ·) [] := by
  induction xs with
  | nil => simp
  | cons x xs ih => simp [ih]

theorem serializeHeader_append (a b : List (String × YamlValue)) :
    serializeHeader (a ++ b) = serializeHeader a ++ serializeHeader b := by
  simp only [serializeHeader, List.map_append, concatFoldr_append]
  rfl

theorem serializeHeader_cons (kv : String × YamlValue)
    (fm : List (String × YamlValue)) :
    serializeHeader (kv :: fm)
      = (⟨serializeField kv⟩ : String) ++ serializeHeader fm := rfl

theorem normalizeFrontmatter_id {fm : List (String × YamlValue)}
    (h : ∀ kv ∈ fm, kv.1 ≠ "tags") : normalizeFrontmatter fm = fm := by
  unfold normalizeFrontmatter
  have : fm.map (fun kv =>
      if kv.1 = "tags" then
        match kv.2 with
        | YamlValue.seq xs => (kv.1, YamlValue.scalar (joinCommaSp xs))
        | v => (kv.1, v)
      else kv) = fm.map id :=
    List.map_congr_left (fun kv hkv => by simp [if_neg (h kv hkv)])
  rw [this, List.map_id]

/-- Claim C1 (counterexample): header normalization does not rewrite every
sequence-valued field; a sequence under any key other than `tags` is left
as a sequence, not joined into a scalar. -/
theorem C1_counterexample :
    normalizeFrontmatter [("categories", YamlValue.seq ["x", "y"])]
      = [("categories", YamlValue.seq ["x", "y"])] ∧
    normalizeFrontmatter [("categories", YamlValue.seq ["x", "y"])]
      ≠ [("categories", YamlValue.scalar "x, y")] := by
  constructor
  · rfl
  · decide

/-- Claim C1 (amended): header normalization rewrites exactly the field
named `tags` when its value is a sequence, joining its elements with
comma-space into a single scalar; all other fields (even sequence-valued
ones) keep their values and types, and the original field order is
preserved in the serialized output. -/
theorem C1_amended :
    (∀ (pre post : List (String × YamlValue)) (xs : List String),
      (∀ kv ∈ pre, kv.1 ≠ "tags") → (∀ kv ∈ post, kv.1 ≠ "tags") →
      convert_frontmatter (pre ++ ("tags", YamlValue.seq xs) :: post)
        = serializeHeader pre ++ ("tags: " ++ joinCommaSp xs ++ "\n")
          ++ serializeHeader post) ∧
    (∀ fm : List (String × YamlValue), (∀ kv ∈ fm, kv.1 ≠ "tags") →
      convert_frontmatter fm = serializeHeader fm) := by
  constructor
  · intro pre post xs hpre hpost
    have h1 : normalizeFrontmatter (pre ++ ("tags", YamlValue.seq xs) :: post)
        = pre ++ ("tags", YamlValue.scalar (joinCommaSp xs)) :: post := by
      have hmap : normalizeFrontmatter (pre ++ ("tags", YamlValue.seq xs) :: post)
          = normalizeFrontmatter pre
            ++ normalizeFrontmatter [("tags", YamlValue.seq xs)]
            ++ normalizeFrontmatter post := by
        simp [normalizeFrontmatter]
      rw [hmap, normalizeFrontmatter_id hpre, normalizeFrontmatter_id hpost]
      have hhead : normalizeFrontmatter [("tags", YamlValue.seq xs)]
          = [("tags", YamlValue.scalar (joinCommaSp xs))] := by
        simp [normalizeFrontmatter]
      rw [hhead]
      simp
    unfold convert_frontmatter
    rw [h1, show pre ++ ("tags", YamlValue.scalar (joinCommaSp xs)) :: post
        = pre ++ ([("tags", YamlValue.scalar (joinCommaSp xs))] ++ post) from by simp,
      serializeHeader_append, serializeHeader_append]
    have hsingle : serializeHeader [("tags", YamlValue.scalar (joinCommaSp xs))]
        = "tags: " ++ joinCommaSp xs ++ "\n" := by
      show (⟨serializeField ("tags", YamlValue.scalar (joinCommaSp xs)) ++ []⟩ : String) = _
      rw [List.append_nil]
      rfl
    rw [hsingle]
    simp [str_append_assoc]
  · intro fm h
    unfold convert_frontmatter
    rw [normalizeFrontmatter_id h]

/-- Claim C1 (witness): the amended statement at a concrete header. -/
theorem C1_witness :
    ((∀ kv ∈ ([("title", YamlValue.scalar "t")] : List (String × YamlValue)),
        kv.1 ≠ "tags") ∧
      (∀ kv ∈ ([("date", YamlValue.scalar "d")] : List (String × YamlValue)),
        kv.1 ≠ "tags") ∧
      convert_frontmatter
        ([("title", YamlValue.scalar "t")]
          ++ ("tags", YamlValue.seq ["a", "b", "c"])
            :: [("date", YamlValue.scalar "d")])
        = serializeHeader [("title", YamlValue.scalar "t")]
          ++ ("tags: " ++ joinCommaSp ["a", "b", "c"] ++ "\n")
          ++ serializeHeader [("date", YamlValue.scalar "d")]) ∧
    ((∀ kv ∈ ([("title", YamlValue.scalar "x")] : List (String × YamlValue)),
        kv.1 ≠ "tags") ∧
      convert_frontmatter [("title", YamlValue.scalar "x")]
        = serializeHeader [("title", YamlValue.scalar "x")]) :=
  ⟨⟨by decide, by decide,
    C1_amended.1 [("title", YamlValue.scalar "t")] [("date", YamlValue.scalar "d")]
      ["a", "b", "c"] (by decide) (by decide)⟩,
   ⟨by decide, C1_amended.2 [("title", YamlValue.scalar "x")] (by decide)⟩⟩

/-! ## Claim C2 and Claim C10: list-container closing behavior -/

theorem pySpace_of_isDigit {c : Char} (h : c.isDigit = true) :
    pySpace c = false := by
  rw [Bool.eq_false_iff]
  intro hs
  simp only [pySpace, Bool.or_eq_true, decide_eq_true_eq] at hs
  rcases hs with ((((h1 | h1) | h1) | h1) | h1) | h1 <;>
    (subst h1; exact absurd h (by decide))

/-- Claim C2 (counterexample): on `'    - a'` then `'- b'` the closing tag
for the indent decrease is emitted with no indentation (the new depth
`0 / 2`), not at the old nesting depth (`4 / 2` units, eight spaces) that
the claim requires. -/
theorem C2_counterexample :
    convert_lists "    - a\n- b"
      = "        <ul>\n            <li> a </li>\n</ul>\n    <li> b </li>\n</ul>" ∧
    convert_lists "    - a\n- b"
      ≠ "        <ul>\n            <li> a </li>\n        </ul>\n    <li> b </li>\n</ul>" := by
  exact ⟨by decide, by decide⟩

/-- Claim C2 (amended): when a list line of the same kind as the open
container arrives with an indent strictly below the recorded indent, the
loop emits the closing tag for the current kind at the nesting depth
derived from the NEW (current) indent (`indent / 2` four-space units, not
the old recorded indent), updates the recorded indent to the new lower
value, and still emits the line as a list item. -/
theorem C2_amended :
    (∀ (st : LState) (m : Nat) (t : List Char),
      st.in_ul = true → m < st.indent_level →
      processListLine st (List.replicate m ' ' ++ '-' :: ' ' :: t)
        = ([sp (m / 2) ++ "</ul>".data,
            sp (m / 2 + 1) ++ "<li> ".data ++ t ++ " </li>".data],
           { st with indent_level := m })) ∧
    (∀ (st : LState) (m : Nat) (ds t : List Char),
      st.in_ol = true → m < st.indent_level → ds ≠ [] →
      (∀ c ∈ ds, c.isDigit = true) →
      processListLine st (List.replicate m ' ' ++ (ds ++ '.' :: ' ' :: t))
        = ([sp (m / 2) ++ "</ol>".data,
            sp (m / 2 + 1) ++ "<li> ".data ++ t ++ " </li>".data],
           { st with indent_level := m })) := by
  constructor
  · intro st m t hul hlt
    have hstr : (List.replicate m ' ' ++ '-' :: ' ' :: t).dropWhile pySpace
        = '-' :: ' ' :: t := dropWhile_spaces_cons rfl
    have hb : isBulletMarked ('-' :: ' ' :: t) = true := prefixOf_iff.2 ⟨t, rfl⟩
    have hind : (List.replicate m ' ' ++ '-' :: ' ' :: t).length
        - ('-' :: ' ' :: t).length = m := length_replicate_append m '-' (' ' :: t)
    have hcond : ¬(st.in_ul = false ∨ st.indent_level < m) := by
      rintro (h | h)
      · rw [hul] at h
        exact absurd h (by simp)
      · omega
    simp only [processListLine, hstr, hb, hind, if_pos, if_neg hcond, if_pos hlt]
    simp
  · intro st m ds t hol hlt hne hds
    obtain ⟨d, ds', rfl⟩ := List.exists_cons_of_ne_nil hne
    have hd : d.isDigit = true := hds d (List.mem_cons_self d ds')
    have hstr : (List.replicate m ' ' ++ ((d :: ds') ++ '.' :: ' ' :: t)).dropWhile pySpace
        = (d :: ds') ++ '.' :: ' ' :: t := by
      rw [show (d :: ds') ++ '.' :: ' ' :: t = d :: (ds' ++ '.' :: ' ' :: t) from rfl]
      exact dropWhile_spaces_cons (pySpace_of_isDigit hd)
    have hb : isBulletMarked ((d :: ds') ++ '.' :: ' ' :: t) = false := by
      rw [Bool.eq_false_iff]
      intro hh
      have : '-' = d := prefixOf_head hh
      rw [← this] at hd
      exact absurd hd (by decide)
    have htake : ((d :: ds') ++ '.' :: ' ' :: t).takeWhile Char.isDigit = d :: ds' :=
      (takeWhile_dropWhile_append hds (by decide)).1
    have hdropm : ((d :: ds') ++ '.' :: ' ' :: t).drop ((d :: ds').length + 2) = t := by
      rw [show (d :: ds') ++ '.' :: ' ' :: t = ((d :: ds') ++ ['.', ' ']) ++ t from by simp,
        show (d :: ds').length + 2 = ((d :: ds') ++ ['.', ' ']).length from by simp]
      exact List.drop_left _ _
    have hom : orderedMarkerLen ((d :: ds') ++ '.' :: ' ' :: t)
        = some ((d :: ds').length + 2) := by
      simp only [orderedMarkerLen, htake]
      rw [if_neg (by simp)]
      rw [List.drop_left]
      rfl
    have hind : (List.replicate m ' ' ++ ((d :: ds') ++ '.' :: ' ' :: t)).length
        - ((d :: ds') ++ '.' :: ' ' :: t).length = m := by
      simp
    have hcond : ¬(st.in_ol = false ∨ st.indent_level < m) := by
      rintro (h | h)
      · rw [hol] at h
        exact absurd h (by simp)
      · omega
    simp only [processListLine, hstr, hb, hom, hind, Bool.false_eq_true,
      if_false, if_neg hcond, if_pos hlt, hdropm]
    simp

/-- Claim C2 (witness): the amended statement at concrete inputs: an open
unordered container at recorded indent 4 receiving `'- b'` at indent 0, and
an open ordered container at recorded indent 4 receiving `'1. b'`. -/
theorem C2_witness :
    (({ in_ul := true, in_ol := false, indent_level := 4 } : LState).in_ul = true ∧
      0 < 4 ∧
      processListLine ({ in_ul := true, in_ol := false, indent_level := 4 } : LState)
        (List.replicate 0 ' ' ++ '-' :: ' ' :: "b".data)
        = ([sp (0 / 2) ++ "</ul>".data,
            sp (0 / 2 + 1) ++ "<li> ".data ++ "b".data ++ " </li>".data],
           { in_ul := true, in_ol := false, indent_level := 0 })) ∧
    (({ in_ul := false, in_ol := true, indent_level := 4 } : LState).in_ol = true ∧
      processListLine ({ in_ul := false, in_ol := true, indent_level := 4 } : LState)
        (List.replicate 0 ' ' ++ ("1".data ++ '.' :: ' ' :: "b".data))
        = ([sp (0 / 2) ++ "</ol>".data,
            sp (0 / 2 + 1) ++ "<li> ".data ++ "b".data ++ " </li>".data],
           { in_ul := false, in_ol := true, indent_level := 0 })) :=
  ⟨⟨rfl, by decide,
    C2_amended.1 ({ in_ul := true, in_ol := false, indent_level := 4 } : LState)
      0 "b".data rfl (by decide)⟩,
   ⟨rfl,
    C2_amended.2 ({ in_ul := false, in_ol := true, indent_level := 4 } : LState)
      0 "1".data "b".data rfl (by decide) (by decide) (by decide)⟩⟩

/-- Claim C10: on the body `'- a'`, `'  - b'` (indent 2), then the
non-list line `'x'`, the converter opens two unordered containers but
closes only one: the counts of `<ul>` and `</ul>` occurrences in the
output are 2 and 1, which are unequal. -/
theorem C10_theorem :
    convert_lists "- a\n  - b\nx"
      = "<ul>\n    <li> a </li>\n    <ul>\n        <li> b </li>\n</ul>\nx" ∧
    countSeq "<ul>".data (convert_lists "- a\n  - b\nx").data = 2 ∧
    countSeq "</ul>".data (convert_lists "- a\n  - b\nx").data = 1 ∧
    countSeq "<ul>".data (convert_lists "- a\n  - b\nx").data
      ≠ countSeq "</ul>".data (convert_lists "- a\n  - b\nx").data :=
  ⟨by decide, by decide, by decide, by decide⟩

/-! ## Claim C3: flat bullet lists -/

/-- Processing a flat bullet line from the closed state opens one
unordered container and emits the item. -/
theorem processListLine_bullet_open (t : List Char) :
    processListLine ({ in_ul := false, in_ol := false, indent_level := 0 } : LState)
      ('-' :: ' ' :: t)
      = (["<ul>".data, sp 1 ++ "<li> ".data ++ t ++ " </li>".data],
         ({ in_ul := true, in_ol := false, indent_level := 0 } : LState)) := by
  have hstr : ('-' :: ' ' :: t).dropWhile pySpace = '-' :: ' ' :: t := by
    rw [List.dropWhile_cons, if_neg (by simp [pySpace])]
  have hb : isBulletMarked ('-' :: ' ' :: t) = true := prefixOf_iff.2 ⟨t, rfl⟩
  simp only [processListLine, hstr, hb]
  simp [Nat.sub_self]

/-- A newline-free pattern that occurs in no line does not occur in the
newline-join of the lines. -/
theorem not_contains_joinNL {p : List Char} (hne : p ≠ []) (hnl : '\n' ∉ p) :
    ∀ ls : List (List Char), (∀ l ∈ ls, containsSeq p l = false) →
      containsSeq p (joinSep ['\n'] ls) = false := by
  intro ls
  induction ls with
  | nil =>
    intro _
    obtain ⟨c, p', rfl⟩ := List.exists_cons_of_ne_nil hne
    simp [joinSep, containsSeq, List.isPrefixOf]
  | cons l ls ih =>
    intro h
    cases ls with
    | nil => exact h l (by simp)
    | cons l2 ls2 =>
      obtain ⟨c, p', hp⟩ := List.exists_cons_of_ne_nil hne
      have hchead : c ≠ '\n' := fun hh => hnl (by rw [hp, hh]; simp)
      have hJ : containsSeq p ('\n' :: joinSep ['\n'] (l2 :: ls2)) = false := by
        have hpre : p.isPrefixOf ('\n' :: joinSep ['\n'] (l2 :: ls2)) = false := by
          rw [Bool.eq_false_iff]
          intro hh
          rw [hp] at hh
          exact hchead (prefixOf_head hh)
        simp only [containsSeq, hpre, Bool.false_or]
        exact ih (fun x hx => h x (List.mem_cons_of_mem l hx))
      have hjoin : joinSep ['\n'] (l :: l2 :: ls2)
          = l ++ ('\n' :: joinSep ['\n'] (l2 :: ls2)) := by
        simp [joinSep]
      rw [hjoin]
      apply not_containsSeq_append (h l (by simp)) hJ
      intro i h1 h2 hcontra
      have hdrop_ne : p.drop i ≠ [] := by
        have : (p.drop i).length = p.length - i := List.length_drop _ _
        intro hnil
        rw [hnil] at this
        simp at this
        omega
      obtain ⟨d, rest, hdr⟩ := List.exists_cons_of_ne_nil hdrop_ne
      have hd_mem : d ∈ p := by
        have hsub : p.drop i <:+ p := List.drop_suffix _ _
        exact hsub.subset (by rw [hdr]; simp)
      have hd_ne : d ≠ '\n' := fun hh => hnl (hh ▸ hd_mem)
      have := hcontra.2
      rw [hdr] at this
      obtain ⟨u, hu⟩ := this
      simp only [List.cons_append, List.cons.injEq] at hu
      exact hd_ne hu.1

/-- A pattern starting with `<` does not occur in an emitted item line when
the item text contains no `<`. -/
theorem not_contains_item {p' t : List Char} (ht : ∀ c ∈ t, c ≠ '<')
    (hp1 : containsSeq ('<' :: p') "    <li> ".data = false)
    (hp2 : containsSeq ('<' :: p') " </li>".data = false)
    (hc1 : ∀ i, 0 < i → i < ('<' :: p').length →
      ¬(('<' :: p').take i <:+ "    <li> ".data))
    (hc2 : ∀ i, 0 < i → i < ('<' :: p').length →
      ¬(('<' :: p').drop i <+: " </li>".data)) :
    containsSeq ('<' :: p') ("    <li> ".data ++ t ++ " </li>".data) = false := by
  have hlt : '<' ∉ t := fun hmem => ht '<' hmem rfl
  have hfirst : containsSeq ('<' :: p') ("    <li> ".data ++ t) = false := by
    apply not_containsSeq_append hp1 (containsSeq_eq_false_of_not_mem hlt)
    intro i h1 h2 hcontra
    exact hc1 i h1 h2 hcontra.1
  apply not_containsSeq_append hfirst hp2
  intro i h1 h2 hcontra
  exact hc2 i h1 h2 hcontra.2

/-- Claim C3: a body that is a flat bullet list of N items at indent 0 is
converted to exactly one `<ul>` line, the N item lines in order, and one
`</ul>` line; and when the item texts are markup-free, no ordered-container
markup occurs anywhere in the output. -/
theorem C3_theorem :
    ∀ ts : List String, ts ≠ [] → (∀ t ∈ ts, '\n' ∉ t.data) →
      (convert_lists ⟨joinSep ['\n'] (ts.map (fun t => '-' :: ' ' :: t.data))⟩
        = ⟨joinSep ['\n'] ("<ul>".data
            :: ts.map (fun t => sp 1 ++ "<li> ".data ++ t.data ++ " </li>".data)
            ++ ["</ul>".data])⟩) ∧
      ((∀ t ∈ ts, ∀ c ∈ t.data, c ≠ '<') →
        containsSeq "<ol>".data
          (convert_lists
            ⟨joinSep ['\n'] (ts.map (fun t => '-' :: ' ' :: t.data))⟩).data = false ∧
        containsSeq "</ol>".data
          (convert_lists
            ⟨joinSep ['\n'] (ts.map (fun t => '-' :: ' ' :: t.data))⟩).data = false) := by
  intro ts hne hnl
  have hlines_ne : ts.map (fun t => '-' :: ' ' :: t.data) ≠ [] := by
    intro hh
    exact hne (List.map_eq_nil_iff.1 hh)
  have hlines_nl : ∀ l ∈ ts.map (fun t => '-' :: ' ' :: t.data), '\n' ∉ l := by
    intro l hl
    obtain ⟨t, hts, rfl⟩ := List.mem_map.1 hl
    intro hmem
    simp only [List.mem_cons] at hmem
    rcases hmem with h | h | h
    · exact absurd h (by decide)
    · exact absurd h (by decide)
    · exact hnl t hts h
  have hsplit : splitLines (joinSep ['\n'] (ts.map (fun t => '-' :: ' ' :: t.data)))
      = ts.map (fun t => '-' :: ' ' :: t.data) :=
    splitLines_joinSep _ hlines_ne hlines_nl
  have hcore : convert_listsCore (ts.map (fun t => '-' :: ' ' :: t.data))
      = "<ul>".data
        :: ts.map (fun t => sp 1 ++ "<li> ".data ++ t.data ++ " </li>".data)
        ++ ["</ul>".data] := by
    obtain ⟨t0, ts', rfl⟩ := List.exists_cons_of_ne_nil hne
    simp only [convert_listsCore, List.map_cons, List.foldl_cons]
    rw [show listStep
        ([], ({ in_ul := false, in_ol := false, indent_level := 0 } : LState))
        ('-' :: ' ' :: t0.data)
        = (["<ul>".data, sp 1 ++ "<li> ".data ++ t0.data ++ " </li>".data],
           ({ in_ul := true, in_ol := false, indent_level := 0 } : LState)) from by
      simp [listStep, processListLine_bullet_open]]
    rw [foldl_bullets]
    simp
  have heq : convert_lists ⟨joinSep ['\n'] (ts.map (fun t => '-' :: ' ' :: t.data))⟩
      = ⟨joinSep ['\n'] ("<ul>".data
          :: ts.map (fun t => sp 1 ++ "<li> ".data ++ t.data ++ " </li>".data)
          ++ ["</ul>".data])⟩ := by
    simp only [convert_lists, hsplit, hcore]
  refine ⟨heq, ?_⟩
  intro hplain
  have hlineok : ∀ (p' : List Char),
      containsSeq ('<' :: p') "    <li> ".data = false →
      containsSeq ('<' :: p') "</ul>".data = false →
      containsSeq ('<' :: p') "<ul>".data = false →
      containsSeq ('<' :: p') " </li>".data = false →
      (∀ i, 0 < i → i < ('<' :: p').length →
        ¬(('<' :: p').take i <:+ "    <li> ".data)) →
      (∀ i, 0 < i → i < ('<' :: p').length →
        ¬(('<' :: p').drop i <+: " </li>".data)) →
      ('\n' ∉ '<' :: p') →
      containsSeq ('<' :: p')
        (convert_lists
          ⟨joinSep ['\n'] (ts.map (fun t => '-' :: ' ' :: t.data))⟩).data = false := by
    intro p' k1 k2 k3 k4 k5 k6 k7
    rw [heq]
    apply not_contains_joinNL (by simp) k7
    intro l hl
    rcases List.mem_cons.1 hl with rfl | hl2
    · exact k3
    rcases List.mem_append.1 hl2 with hl3 | hl4
    · obtain ⟨t, hts, rfl⟩ := List.mem_map.1 hl3
      rw [show sp 1 ++ "<li> ".data ++ t.data ++ " </li>".data
          = "    <li> ".data ++ t.data ++ " </li>".data from rfl]
      exact not_contains_item (hplain t hts) k1 k4 k5 k6
    · rw [List.mem_singleton.1 hl4]
      exact k2
  constructor
  · exact hlineok "ol>".data (by decide) (by decide) (by decide) (by decide)
      (by intro i h1 h2
          have h3 : i < 4 := by simpa using h2
          interval_cases i <;> decide)
      (by intro i h1 h2
          have h3 : i < 4 := by simpa using h2
          interval_cases i <;> decide) (by decide)
  · exact hlineok "/ol>".data (by decide) (by decide) (by decide) (by decide)
      (by intro i h1 h2
          have h3 : i < 5 := by simpa using h2
          interval_cases i <;> decide)
      (by intro i h1 h2
          have h3 : i < 5 := by simpa using h2
          interval_cases i <;> decide) (by decide)

/-- Claim C3 (witness): the flat list `'- a'`, `'- b'`. -/
theorem C3_witness :
    convert_lists "- a\n- b" = "<ul>\n    <li> a </li>\n    <li> b </li>\n</ul>" ∧
    containsSeq "<ol>".data (convert_lists "- a\n- b").data = false ∧
    containsSeq "</ol>".data (convert_lists "- a\n- b").data = false := by
  have h := C3_theorem ["a", "b"] (by decide) (by decide)
  have e1 : ("- a\n- b" : String)
      = ⟨joinSep ['\n'] ((["a", "b"] : List String).map (fun t => '-' :: ' ' :: t.data))⟩ := by
    decide
  have e2 : ("<ul>\n    <li> a </li>\n    <li> b </li>\n</ul>" : String)
      = ⟨joinSep ['\n'] ("<ul>".data
          :: (["a", "b"] : List String).map
              (fun t => sp 1 ++ "<li> ".data ++ t.data ++ " </li>".data)
          ++ ["</ul>".data])⟩ := by
    decide
  refine ⟨?_, ?_, ?_⟩
  · rw [e1, e2]
    exact h.1
  · rw [e1]
    exact (h.2 (by decide)).1
  · rw [e1]
    exact (h.2 (by decide)).2

/-! ## Claim C7: strikethrough -/

/-- Claim C7 (counterexample): the input `'~~a\nb~~'` contains `~~X~~` with
`X = 'a\nb'` non-empty and free of `~~`, yet the output does not contain
`<s>a\nb</s>` at all (the dot of the pattern does not match newlines). -/
theorem C7_counterexample :
    convert_strikethrough "~~a\nb~~" = "~~a\nb~~" ∧
    countSeq "<s>a\nb</s>".data (convert_strikethrough "~~a\nb~~").data = 0 := by
  exact ⟨by decide, by decide⟩

/-- Claim C7 (amended): for an input of the form `A ++ '~~' ++ X ++ '~~' ++ B`
where `X` is non-empty, newline-free, contains no `~~`, does not end in `~`,
and `A` contains no `~`, the span is rewritten in place to `<s>X</s>` with
`X` preserved byte-for-byte, and scanning continues after the closer
(shortest-span, left-to-right, non-overlapping); a `~~` pair with no
closing pair in range is left untouched. -/
theorem C7_amended :
    (∀ A X B : List Char, (∀ c ∈ A, c ≠ '~') → X ≠ [] → '\n' ∉ X →
      containsSeq "~~".data X = false → X.getLast? ≠ some '~' →
      convert_strikethrough ⟨A ++ "~~".data ++ X ++ "~~".data ++ B⟩
        = (⟨A ++ "<s>".data ++ X ++ "</s>".data⟩ : String)
          ++ convert_strikethrough ⟨B⟩) ∧
    (∀ C D : List Char, (∀ c ∈ C, c ≠ '~') → (∀ c ∈ D, c ≠ '~') →
      convert_strikethrough ⟨C ++ "~~".data ++ D⟩ = ⟨C ++ "~~".data ++ D⟩) := by
  have hnone_left : ∀ (A k : List Char), (∀ c ∈ A, c ≠ '~') →
      ∀ a₂, a₂ ≠ [] → a₂ <:+ A → strikeTry (a₂ ++ k) = none := by
    intro A k hA a₂ hne hsuf
    obtain ⟨c, rest, rfl⟩ := List.exists_cons_of_ne_nil hne
    have hc : c ∈ A := hsuf.subset (List.mem_cons_self c rest)
    exact strikeTry_none_of_head (hA c hc)
  constructor
  · intro A X B hA hne hnl hcon hlast
    have hshape : A ++ "~~".data ++ X ++ "~~".data ++ B
        = A ++ ('~' :: '~' :: (X ++ '~' :: '~' :: B)) := by
      simp only [List.append_assoc]
      rfl
    show (⟨scanF strikeTry (A ++ "~~".data ++ X ++ "~~".data ++ B).length
        (A ++ "~~".data ++ X ++ "~~".data ++ B)⟩ : String) = _
    rw [hshape]
    rw [scanF_append (t := strikeTry) A ('~' :: '~' :: (X ++ '~' :: '~' :: B))
      (hnone_left A _ hA)]
    have hst : strikeTry ('~' :: '~' :: (X ++ '~' :: '~' :: B))
        = some ("<s>".data ++ X ++ "</s>".data, B) := by
      simp only [strikeTry, fsc_at B hne hnl hcon hlast]
      simp
    have hlen : ('~' :: '~' :: (X ++ '~' :: '~' :: B)).length
        = (X ++ '~' :: '~' :: B).length + 1 + 1 := by simp
    rw [hlen, scanF_cons_some hst]
    have hcanon : scanF strikeTry ((X ++ '~' :: '~' :: B).length + 1) B
        = scanF strikeTry B.length B := by
      apply scanF_fuel strikeTry_length
      · simp
        omega
      · exact Nat.le_refl _
    rw [hcanon]
    show String.mk _ = String.mk _
    congr 1
    simp [List.append_assoc]
  · intro C D hC hD
    have hshape : C ++ "~~".data ++ D = C ++ ('~' :: '~' :: D) := by
      simp only [List.append_assoc]
      rfl
    show (⟨scanF strikeTry (C ++ "~~".data ++ D).length
        (C ++ "~~".data ++ D)⟩ : String) = _
    rw [hshape]
    rw [scanF_append (t := strikeTry) C ('~' :: '~' :: D) (hnone_left C _ hC)]
    have hst : strikeTry ('~' :: '~' :: D) = none := by
      simp only [strikeTry, fsc_none_of_no_tilde hD]
      simp
    have hst2 : strikeTry ('~' :: D) = none := by
      cases D with
      | nil => rfl
      | cons d D' =>
        simp only [strikeTry]
        rw [if_neg]
        intro hh
        exact (hD d (List.mem_cons_self d D')) hh.2
    have hlen : ('~' :: '~' :: D).length = D.length + 1 + 1 := by simp
    rw [hlen, scanF_cons_none hst, scanF_cons_none hst2,
      scanF_id_of_no_match D (hasMatch_strikeTry_no_tilde hD)]

/-- Claim C7 (witness): the amended statement at concrete inputs. -/
theorem C7_witness :
    convert_strikethrough "x ~~a~~ y" = "x <s>a</s> y" ∧
    convert_strikethrough "ab~~cd" = "ab~~cd" := by
  constructor
  · have h := C7_amended.1 "x ".data "a".data " y".data (by decide) (by decide)
      (by decide) (by decide) (by decide)
    have e1 : ("x ~~a~~ y" : String)
        = ⟨"x ".data ++ "~~".data ++ "a".data ++ "~~".data ++ " y".data⟩ := by decide
    have e2 : (⟨"x ".data ++ "<s>".data ++ "a".data ++ "</s>".data⟩ : String)
        ++ convert_strikethrough ⟨" y".data⟩ = "x <s>a</s> y" := by decide
    rw [e1, h, e2]
  · have h := C7_amended.2 "ab".data "cd".data (by decide) (by decide)
    have e1 : ("ab~~cd" : String) = ⟨"ab".data ++ "~~".data ++ "cd".data⟩ := by decide
    rw [e1, h]

/-! ## Claim C6: fenced code blocks -/

/-- The code-fence matcher fires on a well-formed fence at the current
position, producing the four-space-indented body and the text after the
closer. -/
theorem cbTry_at {lang body rest : List Char}
    (hlang : ∀ c ∈ lang, isWordChar c = true)
    (hcon : containsSeq "```".data body = false)
    (hlast : body.getLast? ≠ some '`') :
    cbTry ('`' :: '`' :: '`' :: (lang ++ '\n' :: (body ++ '`' :: '`' :: '`' :: rest)))
      = some (indentBody body, rest) := by
  have hdw : ((('`' :: '`' :: '`' ::
        (lang ++ '\n' :: (body ++ '`' :: '`' :: '`' :: rest))).drop 3).dropWhile isWordChar)
      = '\n' :: (body ++ '`' :: '`' :: '`' :: rest) := by
    rw [show (('`' :: '`' :: '`' ::
        (lang ++ '\n' :: (body ++ '`' :: '`' :: '`' :: rest))).drop 3)
        = lang ++ '\n' :: (body ++ '`' :: '`' :: '`' :: rest) from rfl]
    exact (takeWhile_dropWhile_append hlang (by decide)).2
  simp only [cbTry]
  rw [if_pos (show (['`', '`', '`'] : List Char).isPrefixOf
      ('`' :: '`' :: '`' :: (lang ++ '\n' :: (body ++ '`' :: '`' :: '`' :: rest))) = true
    from prefixOf_iff.2 ⟨_, rfl⟩)]
  rw [hdw]
  show (match findClose (body ++ '`' :: '`' :: '`' :: rest) with
    | some br => some (indentBody br.1, br.2)
    | none => none) = some (indentBody body, rest)
  rw [findClose_at rest hcon hlast]

/-- Claim C6: a fenced block with a line-initial opener, an optional word
language tag, and a later closer is replaced by its body with four spaces
prepended to every line (delimiters and tag removed, scanning continues
after the closer); a fence with no closer is left as literal text. -/
theorem C6_theorem :
    (∀ pre lang body rest : List Char,
      (pre = [] ∨ pre.getLast? = some '\n') →
      (∀ c ∈ pre, c ≠ '`') →
      (∀ c ∈ lang, isWordChar c = true) →
      containsSeq "```".data body = false →
      body.getLast? ≠ some '`' →
      convert_code_blocks
        ⟨pre ++ "```".data ++ lang ++ '\n' :: (body ++ "```".data ++ rest)⟩
        = (⟨pre ++ indentBody body⟩ : String) ++ convert_code_blocks ⟨rest⟩) ∧
    (∀ lang body : List Char,
      (∀ c ∈ lang, isWordChar c = true) →
      containsSeq "```".data body = false →
      convert_code_blocks ⟨"```".data ++ lang ++ '\n' :: body⟩
        = ⟨"```".data ++ lang ++ '\n' :: body⟩) := by
  have hnotick_lang : ∀ {lang : List Char}, (∀ c ∈ lang, isWordChar c = true) →
      '`' ∉ lang := by
    intro lang hlang hmem
    exact absurd (hlang '`' hmem) (by decide)
  have hhead_ne : ∀ {M : List Char} {lang body : List Char},
      M = lang ++ '\n' :: body → (∀ c ∈ lang, isWordChar c = true) →
      ∀ t, M ≠ '`' :: t := by
    intro M lang body hM hlang t hcontra
    cases lang with
    | nil =>
      rw [hM] at hcontra
      simp at hcontra
    | cons l0 lang' =>
      rw [hM] at hcontra
      simp only [List.cons_append, List.cons.injEq] at hcontra
      have := hlang l0 (List.mem_cons_self _ _)
      rw [hcontra.1] at this
      exact absurd this (by decide)
  constructor
  · intro pre lang body rest hinit hpre hlang hcon hlast
    have hshape : pre ++ "```".data ++ lang ++ '\n' :: (body ++ "```".data ++ rest)
        = pre ++ ('`' :: '`' :: '`' ::
            (lang ++ '\n' :: (body ++ '`' :: '`' :: '`' :: rest))) := by
      simp only [List.append_assoc]
      rfl
    show (⟨scanF cbTry
        (pre ++ "```".data ++ lang ++ '\n' :: (body ++ "```".data ++ rest)).length
        (pre ++ "```".data ++ lang ++ '\n' :: (body ++ "```".data ++ rest))⟩ : String) = _
    rw [hshape]
    rw [scanF_append (t := cbTry) pre _ ?hnone]
    case hnone =>
      intro a₂ hne hsuf
      obtain ⟨c, r2, rfl⟩ := List.exists_cons_of_ne_nil hne
      have hc : c ∈ pre := hsuf.subset (List.mem_cons_self c r2)
      apply cbTry_none_of_no_prefix
      rw [Bool.eq_false_iff]
      intro hh
      exact (hpre c hc) (prefixOf_head hh).symm
    have hcb := @cbTry_at lang body rest hlang hcon hlast
    have hlen : ('`' :: '`' :: '`' ::
        (lang ++ '\n' :: (body ++ '`' :: '`' :: '`' :: rest))).length
        = (lang ++ '\n' :: (body ++ '`' :: '`' :: '`' :: rest)).length + 2 + 1 := by
      simp
    rw [hlen, scanF_cons_some hcb]
    have hcanon : scanF cbTry
        ((lang ++ '\n' :: (body ++ '`' :: '`' :: '`' :: rest)).length + 2) rest
        = scanF cbTry rest.length rest := by
      apply scanF_fuel cbTry_length
      · simp
        omega
      · exact Nat.le_refl _
    rw [hcanon]
    show String.mk _ = String.mk _
    congr 1
    simp [List.append_assoc]
  · intro lang body hlang hcon
    have hshape : "```".data ++ lang ++ '\n' :: body
        = '`' :: '`' :: '`' :: (lang ++ '\n' :: body) := by
      simp only [List.append_assoc]
      rfl
    have hM : lang ++ '\n' :: body = lang ++ '\n' :: body := rfl
    have hcb1 : cbTry ('`' :: '`' :: '`' :: (lang ++ '\n' :: body)) = none := by
      have hdw : ((('`' :: '`' :: '`' :: (lang ++ '\n' :: body)).drop 3).dropWhile isWordChar)
          = '\n' :: body := by
        rw [show (('`' :: '`' :: '`' :: (lang ++ '\n' :: body)).drop 3)
            = lang ++ '\n' :: body from rfl]
        exact (takeWhile_dropWhile_append hlang (by decide)).2
      simp only [cbTry]
      rw [if_pos (show (['`', '`', '`'] : List Char).isPrefixOf
          ('`' :: '`' :: '`' :: (lang ++ '\n' :: body)) = true
        from prefixOf_iff.2 ⟨_, rfl⟩)]
      rw [hdw]
      show (match findClose body with
        | some br => some (indentBody br.1, br.2)
        | none => none) = none
      rw [findClose_none hcon]
    have hcb2 : cbTry ('`' :: '`' :: (lang ++ '\n' :: body)) = none := by
      apply cbTry_none_of_no_prefix
      rw [Bool.eq_false_iff]
      intro hh
      obtain ⟨t, ht⟩ := prefixOf_iff.1 hh
      simp only [List.cons_append, List.cons.injEq] at ht
      exact hhead_ne hM hlang t ht.2.2
    have hcb3 : cbTry ('`' :: (lang ++ '\n' :: body)) = none := by
      apply cbTry_none_of_no_prefix
      rw [Bool.eq_false_iff]
      intro hh
      obtain ⟨t, ht⟩ := prefixOf_iff.1 hh
      simp only [List.cons_append, List.cons.injEq] at ht
      exact hhead_ne hM hlang ('`' :: t) ht.2
    have hid : scanF cbTry (lang ++ '\n' :: body).length (lang ++ '\n' :: body)
        = lang ++ '\n' :: body := by
      apply scanF_id_of_no_match
      apply hasMatch_cbTry_of_not_contains
      apply not_containsSeq_append (containsSeq_eq_false_of_not_mem (hnotick_lang hlang))
      · have hpre0 : (['`', '`', '`'] : List Char).isPrefixOf ('\n' :: body) = false := by
          rw [Bool.eq_false_iff]
          intro hh
          have := prefixOf_head hh
          exact absurd this (by decide)
        simp only [containsSeq, hpre0, Bool.false_or]
        exact hcon
      · intro i h1 h2 hcontra
        have htick : '`' ∈ (['`', '`', '`'] : List Char).take i := by
          rw [List.take_cons h1]
          simp
        exact hnotick_lang hlang (hcontra.1.subset htick)
    show (⟨scanF cbTry ("```".data ++ lang ++ '\n' :: body).length
        ("```".data ++ lang ++ '\n' :: body)⟩ : String) = _
    rw [hshape]
    have hlen : ('`' :: '`' :: '`' :: (lang ++ '\n' :: body)).length
        = ((lang ++ '\n' :: body).length + 2) + 1 := by simp
    rw [hlen, scanF_cons_none hcb1]
    rw [show (lang ++ '\n' :: body).length + 2
        = ((lang ++ '\n' :: body).length + 1) + 1 from rfl, scanF_cons_none hcb2]
    rw [show (lang ++ '\n' :: body).length + 1
        = (lang ++ '\n' :: body).length + 1 from rfl, scanF_cons_none hcb3]
    rw [hid]

/-- Claim C6 (witness): the fence ` ```python\nprint(1)\n``` ` and the
unterminated fence ` ```py\nxx `. -/
theorem C6_witness :
    convert_code_blocks "```python\nprint(1)\n```" = "    print(1)\n    " ∧
    convert_code_blocks "```py\nxx" = "```py\nxx" := by
  constructor
  · have h := C6_theorem.1 [] "python".data "print(1)\n".data [] (Or.inl rfl)
      (by decide) (by decide) (by decide) (by decide)
    have e1 : ("```python\nprint(1)\n```" : String)
        = ⟨[] ++ "```".data ++ "python".data
            ++ '\n' :: ("print(1)\n".data ++ "```".data ++ [])⟩ := by decide
    have e2 : (⟨[] ++ indentBody "print(1)\n".data⟩ : String)
        ++ convert_code_blocks ⟨[]⟩ = "    print(1)\n    " := by decide
    rw [e1, h, e2]
  · have h := C6_theorem.2 "py".data "xx".data (by decide) (by decide)
    have e1 : ("```py\nxx" : String)
        = ⟨"```".data ++ "py".data ++ '\n' :: "xx".data⟩ := by decide
    rw [e1, h]

/-! ## Claim C8: image elements -/

/-- Claim C8: an image element with `src` before `alt`, both double-quoted,
non-empty `src`, and optional extra attributes before the close, is
replaced by `![ALT](URL)`; elements with the attributes in the other order
or with single quotes are not rewritten. -/
theorem C8_theorem :
    (∀ pre src alt extra rest : List Char,
      (∀ c ∈ pre, c ≠ '<') → src ≠ [] → (∀ c ∈ src, c ≠ '"') →
      (∀ c ∈ alt, c ≠ '"') → (∀ c ∈ extra, c ≠ '>') →
      convert_images ⟨pre ++ "<img src=\"".data ++ src ++ "\" alt=\"".data ++ alt
          ++ "\"".data ++ extra ++ ">".data ++ rest⟩
        = (⟨pre ++ "![".data ++ alt ++ "](".data ++ src ++ ")".data⟩ : String)
          ++ convert_images ⟨rest⟩) ∧
    convert_images "<img alt=\"cap\" src=\"a.png\">" = "<img alt=\"cap\" src=\"a.png\">" ∧
    convert_images "<img src='a.png' alt='cap'>" = "<img src='a.png' alt='cap'>" := by
  refine ⟨?_, by decide, by decide⟩
  intro pre src alt extra rest hpre h1 h2 h3 h4
  have hshape : pre ++ "<img src=\"".data ++ src ++ "\" alt=\"".data ++ alt
      ++ "\"".data ++ extra ++ ">".data ++ rest
      = pre ++ ("<img src=\"".data ++ src ++ "\" alt=\"".data ++ alt
          ++ "\"".data ++ extra ++ ">".data ++ rest) := by
    simp only [List.append_assoc]
  have hsplit : "<img src=\"".data ++ src ++ "\" alt=\"".data ++ alt
      ++ "\"".data ++ extra ++ ">".data ++ rest
      = '<' :: ("img src=\"".data ++ src ++ "\" alt=\"".data ++ alt
          ++ "\"".data ++ extra ++ ">".data ++ rest) := rfl
  have himg : imgTry ('<' :: ("img src=\"".data ++ src ++ "\" alt=\"".data ++ alt
      ++ "\"".data ++ extra ++ ">".data ++ rest))
      = some ("![".data ++ alt ++ "](".data ++ src ++ ")".data, rest) := by
    rw [← hsplit]
    exact imgTry_at h1 h2 h3 h4
  show (⟨scanF imgTry
      (pre ++ "<img src=\"".data ++ src ++ "\" alt=\"".data ++ alt
        ++ "\"".data ++ extra ++ ">".data ++ rest).length
      (pre ++ "<img src=\"".data ++ src ++ "\" alt=\"".data ++ alt
        ++ "\"".data ++ extra ++ ">".data ++ rest)⟩ : String) = _
  rw [hshape]
  rw [scanF_append (t := imgTry) pre _ ?hnone]
  case hnone =>
    intro a₂ hne hsuf
    obtain ⟨c, r2, rfl⟩ := List.exists_cons_of_ne_nil hne
    have hc : c ∈ pre := hsuf.subset (List.mem_cons_self c r2)
    exact imgTry_none_of_head (hpre c hc)
  rw [hsplit]
  rw [show ('<' :: ("img src=\"".data ++ src ++ "\" alt=\"".data ++ alt
      ++ "\"".data ++ extra ++ ">".data ++ rest)).length
      = ("img src=\"".data ++ src ++ "\" alt=\"".data ++ alt
        ++ "\"".data ++ extra ++ ">".data ++ rest).length + 1 from rfl,
    scanF_cons_some himg]
  have hcanon : scanF imgTry
      ("img src=\"".data ++ src ++ "\" alt=\"".data ++ alt
        ++ "\"".data ++ extra ++ ">".data ++ rest).length rest
      = scanF imgTry rest.length rest := by
    apply scanF_fuel imgTry_length
    · simp
      omega
    · exact Nat.le_refl _
  rw [hcanon]
  show String.mk _ = String.mk _
  congr 1
  simp [List.append_assoc]

/-- Claim C8 (witness): the two documented conversions, with a caption and
with an empty caption. -/
theorem C8_witness :
    convert_images "<img src=\"a.png\" alt=\"cap\">" = "![cap](a.png)" ∧
    convert_images "<img src=\"a.png\" alt=\"\">" = "![](a.png)" := by
  constructor
  · have h := C8_theorem.1 [] "a.png".data "cap".data [] [] (by decide) (by decide)
      (by decide) (by decide) (by decide)
    have e1 : ("<img src=\"a.png\" alt=\"cap\">" : String)
        = ⟨[] ++ "<img src=\"".data ++ "a.png".data ++ "\" alt=\"".data ++ "cap".data
            ++ "\"".data ++ [] ++ ">".data ++ []⟩ := by decide
    have e2 : (⟨[] ++ "![".data ++ "cap".data ++ "](".data ++ "a.png".data
        ++ ")".data⟩ : String) ++ convert_images ⟨[]⟩ = "![cap](a.png)" := by decide
    rw [e1, h, e2]
  · have h := C8_theorem.1 [] "a.png".data [] [] [] (by decide) (by decide)
      (by decide) (by decide) (by decide)
    have e1 : ("<img src=\"a.png\" alt=\"\">" : String)
        = ⟨[] ++ "<img src=\"".data ++ "a.png".data ++ "\" alt=\"".data ++ []
            ++ "\"".data ++ [] ++ ">".data ++ []⟩ := by decide
    have e2 : (⟨[] ++ "![".data ++ [] ++ "](".data ++ "a.png".data
        ++ ")".data⟩ : String) ++ convert_images ⟨[]⟩ = "![](a.png)" := by decide
    rw [e1, h, e2]

/-! ## Claim C5: round-trip idempotence -/

/-- If none of the four rewriting patterns can fire, the body transforms
are the identity. -/
theorem transforms_id {s : String}
    (h1 : hasMatch strikeTry s.data = false)
    (h2 : ∀ l ∈ splitLines s.data, isListLine l = false)
    (h3 : containsSeq "```".data s.data = false)
    (h4 : hasMatch imgTry s.data = false) :
    convert_images (convert_code_blocks (convert_lists (convert_strikethrough s)))
      = s := by
  have e1 : convert_strikethrough s = s := by
    show (⟨scanF strikeTry s.data.length s.data⟩ : String) = s
    rw [scanF_id_of_no_match s.data h1]
  rw [e1, convert_lists_id h2]
  have e3 : convert_code_blocks s = s := by
    show (⟨scanF cbTry s.data.length s.data⟩ : String) = s
    rw [scanF_id_of_no_match s.data (hasMatch_cbTry_of_not_contains h3)]
  rw [e3]
  show (⟨scanF imgTry s.data.length s.data⟩ : String) = s
  rw [scanF_id_of_no_match s.data h4]

/-- Claim C5: a document already in the target dialect — no strikethrough
pair in range of the matcher, no line classified as a bullet or ordered
item, no triple-backtick fence, no matching image element, no LaTeX math —
is returned unchanged with no warnings appended. -/
theorem C5_theorem (s : String)
    (h1 : hasMatch strikeTry s.data = false)
    (h2 : ∀ l ∈ splitLines s.data, isListLine l = false)
    (h3 : containsSeq "```".data s.data = false)
    (h4 : hasMatch imgTry s.data = false)
    (h5 : check_latex_math s = false) :
    convert_content s = (s, []) := by
  unfold convert_content
  rw [h5, transforms_id h1 h2 h3 h4]
  simp

/-- Claim C5 (witness): an already-target-dialect document with container
markup and prose passes through unchanged. -/
theorem C5_witness :
    convert_content "prose here\n<ul>\n    <li> x </li>\n</ul>\n<s>gone</s>"
      = ("prose here\n<ul>\n    <li> x </li>\n</ul>\n<s>gone</s>", []) :=
  C5_theorem "prose here\n<ul>\n    <li> x </li>\n</ul>\n<s>gone</s>"
    (by decide) (by decide) (by decide) (by decide) (by decide)

/-! ## Claim C9: LaTeX math detection and pass-through -/

theorem hasBlockMath_append_right {y : List Char} (x : List Char)
    (h : hasBlockMath y = true) : hasBlockMath (x ++ y) = true := by
  induction x with
  | nil => simpa using h
  | cons c cs ih => simp [hasBlockMath, ih]

/-- Claim C9 (counterexample): a body containing the span `$$ E=mc^2 $$`
inside the discarded extra-attribute region of a matched image element
produces exactly one advisory, but the span is not byte-identical in the
converted output — it is deleted with the attributes. -/
theorem C9_counterexample :
    convert_content "<img src=\"a\" alt=\"b\" $$ E=mc^2 $$>"
      = ("![b](a)", [latexWarning]) ∧
    containsSeq "$$ E=mc^2 $$".data
      ((convert_content "<img src=\"a\" alt=\"b\" $$ E=mc^2 $$>").1).data = false :=
  ⟨by decide, by decide⟩

/-- Claim C9 (amended): for a body `A ++ '$$ E=mc^2 $$' ++ B` where the
surrounding text contains none of the rewritten special characters
(`$`, `~`, backtick, `<`) and no line is a list item, a single conversion
call appends exactly one advisory and returns the body unchanged, so the
span appears byte-identical in the output; detection itself is a pure
predicate and never mutates the content. -/
theorem C9_amended :
    ∀ A B : List Char,
      (∀ c ∈ A, c ≠ '$' ∧ c ≠ '~' ∧ c ≠ '`' ∧ c ≠ '<') →
      (∀ c ∈ B, c ≠ '$' ∧ c ≠ '~' ∧ c ≠ '`' ∧ c ≠ '<') →
      (∀ l ∈ splitLines (A ++ "$$ E=mc^2 $$".data ++ B), isListLine l = false) →
      convert_content ⟨A ++ "$$ E=mc^2 $$".data ++ B⟩
        = (⟨A ++ "$$ E=mc^2 $$".data ++ B⟩, [latexWarning]) := by
  intro A B hA hB hL
  have hspan_tilde : ∀ c ∈ "$$ E=mc^2 $$".data, c ≠ '~' := by decide
  have hspan_tick : ∀ c ∈ "$$ E=mc^2 $$".data, c ≠ '`' := by decide
  have hspan_lt : ∀ c ∈ "$$ E=mc^2 $$".data, c ≠ '<' := by decide
  have hmem : ∀ (ch : Char), (∀ c ∈ "$$ E=mc^2 $$".data, c ≠ ch) →
      (∀ c ∈ A, c ≠ ch) → (∀ c ∈ B, c ≠ ch) →
      ∀ c ∈ A ++ "$$ E=mc^2 $$".data ++ B, c ≠ ch := by
    intro ch hs ha hb c hc
    rcases List.mem_append.1 hc with hc1 | hc2
    · rcases List.mem_append.1 hc1 with h1 | h2
      · exact ha c h1
      · exact hs c h2
    · exact hb c hc2
  have h1 : hasMatch strikeTry
      (A ++ "$$ E=mc^2 $$".data ++ B) = false :=
    hasMatch_strikeTry_no_tilde
      (hmem '~' hspan_tilde (fun c hc => (hA c hc).2.1) (fun c hc => (hB c hc).2.1))
  have h3 : containsSeq "```".data (A ++ "$$ E=mc^2 $$".data ++ B) = false :=
    containsSeq_eq_false_of_not_mem
      (fun hmem2 => (hmem '`' hspan_tick (fun c hc => (hA c hc).2.2.1)
        (fun c hc => (hB c hc).2.2.1)) '`' hmem2 rfl)
  have h4 : hasMatch imgTry (A ++ "$$ E=mc^2 $$".data ++ B) = false :=
    hasMatch_imgTry_no_lt
      (hmem '<' hspan_lt (fun c hc => (hA c hc).2.2.2) (fun c hc => (hB c hc).2.2.2))
  have hmath : check_latex_math ⟨A ++ "$$ E=mc^2 $$".data ++ B⟩ = true := by
    have hx : containsSeq ['$', '$'] (" E=mc^2 $$".data ++ B) = true := by
      have h0 := containsSeq_sandwich ['$', '$'] " E=mc^2 ".data B
      exact h0
    have hspanB : hasBlockMath ("$$ E=mc^2 $$".data ++ B) = true := by
      show (blockMathHere ('$' :: '$' :: (" E=mc^2 $$".data ++ B))
          || hasBlockMath ('$' :: (" E=mc^2 $$".data ++ B))) = true
      rw [show blockMathHere ('$' :: '$' :: (" E=mc^2 $$".data ++ B))
          = containsSeq ['$', '$'] (" E=mc^2 $$".data ++ B) from rfl]
      rw [show containsSeq ['$', '$'] (" E=mc^2 $$".data ++ B) = true from hx]
      simp
    have hball : hasBlockMath (A ++ "$$ E=mc^2 $$".data ++ B) = true := by
      rw [show A ++ "$$ E=mc^2 $$".data ++ B
          = A ++ ("$$ E=mc^2 $$".data ++ B) from by simp [List.append_assoc]]
      exact hasBlockMath_append_right A hspanB
    show (hasInlineMath (A ++ "$$ E=mc^2 $$".data ++ B)
        || hasBlockMath (A ++ "$$ E=mc^2 $$".data ++ B)) = true
    rw [hball]
    simp
  unfold convert_content
  rw [hmath, transforms_id h1 hL h3 h4]
  simp

/-- Claim C9 (witness): the amended statement at `'text $$ E=mc^2 $$ more'`. -/
theorem C9_witness :
    convert_content "text $$ E=mc^2 $$ more"
      = ("text $$ E=mc^2 $$ more", [latexWarning]) := by
  have h := C9_amended "text ".data " more".data (by decide) (by decide) (by decide)
  have e1 : ("text $$ E=mc^2 $$ more" : String)
      = ⟨"text ".data ++ "$$ E=mc^2 $$".data ++ " more".data⟩ := by decide
  rw [e1, h]

/-! ## Claim C4: document splitting and reassembly -/

theorem splitSub_header (h b : List Char)
    (hh : containsSeq "---".data h = false) :
    splitSub "---\n".data ("---\n".data ++ h ++ "---\n".data ++ b)
      = [] :: h :: splitSub "---\n".data b := by
  have e : "---\n".data ++ h ++ "---\n".data ++ b
      = [] ++ '-' :: '-' :: '-' :: '\n' :: (h ++ '-' :: '-' :: '-' :: '\n' :: b) := by
    show "---\n".data ++ h ++ "---\n".data ++ b
        = "---\n".data ++ (h ++ ("---\n".data ++ b))
    simp [List.append_assoc]
  unfold splitSub
  rw [e]
  rw [splitSubF_fm_through (le_refl _) (by decide)]
  rw [splitSubF_fm_through (le_refl _) hh]
  simp

theorem convert_file_header (c : String) (h b : List Char)
    (hc : c.data = "---\n".data ++ h ++ "---\n".data ++ b)
    (hh : containsSeq "---".data h = false) :
    convert_file c
      = (("---\n" : String) ++ convert_frontmatter (parseHeader ⟨h⟩)
          ++ "---\n" ++ (convert_content ⟨b⟩).1,
         (convert_content ⟨b⟩).2) := by
  have hpre : ("---\n".data).isPrefixOf
      ("---\n".data ++ h ++ "---\n".data ++ b) = true :=
    prefixOf_iff.2 ⟨h ++ "---\n".data ++ b, by simp [List.append_assoc]⟩
  unfold convert_file
  rw [hc, if_pos hpre, splitSub_header h b hh]
  cases hb2 : splitSub "---\n".data b with
  | nil => exact absurd hb2 (splitSubF_ne_nil "---\n".data b.length [] b)
  | cons p2 ps =>
    have hjoin : joinSep "---\n".data (p2 :: ps) = b := by
      rw [← hb2]
      simpa using joinSep_splitSubF "---\n".data (by decide) b.length [] b (le_refl _)
    show (("---\n" : String) ++ convert_frontmatter (parseHeader ⟨h⟩) ++ "---\n"
        ++ (convert_content ⟨joinSep "---\n".data (p2 :: ps)⟩).1,
      (convert_content ⟨joinSep "---\n".data (p2 :: ps)⟩).2)
      = (("---\n" : String) ++ convert_frontmatter (parseHeader ⟨h⟩) ++ "---\n"
          ++ (convert_content ⟨b⟩).1, (convert_content ⟨b⟩).2)
    rw [hjoin]

/-- Claim C4 (counterexample): the code splits on the SUBSTRING `---\n`,
not on delimiter LINES. In `---\n~~x~~---\nrest` only one delimiter line
exists (the second `---\n` occurrence ends the line `~~x~~---`), so the
claimed behaviour is the body-only branch, i.e. `convert_content` of the
whole input; the code instead takes the header branch and produces a
different result. -/
theorem C4_counterexample :
    convert_file "---\n~~x~~---\nrest" = ("---\n---\nrest", []) ∧
    convert_content "---\n~~x~~---\nrest" = ("---\n<s>x</s>---\nrest", []) ∧
    convert_file "---\n~~x~~---\nrest" ≠ convert_content "---\n~~x~~---\nrest" :=
  ⟨by decide, by decide, by decide⟩

/-- Claim C4 (amended): (a) if the input does not start with `---\n`, the
result is just the converted body (the whole input); (b) if the input is
`---\n` ++ header ++ `---\n` ++ body where the header contains no `---`
substring, the split happens at the second SUBSTRING occurrence of `---\n`
and the result is reassembled as the delimiter, the serialized normalized
header, the delimiter, then the converted body; (c) if the input starts
with `---\n` but holds fewer than two substring occurrences of `---\n`,
the whole input is treated as body-only with no error. -/
theorem C4_amended :
    (∀ c : String, ("---\n".data).isPrefixOf c.data = false →
        convert_file c = convert_content c) ∧
    (∀ h b : List Char, containsSeq "---".data h = false →
        convert_file ⟨"---\n".data ++ h ++ "---\n".data ++ b⟩
          = (("---\n" : String) ++ convert_frontmatter (parseHeader ⟨h⟩)
              ++ "---\n" ++ (convert_content ⟨b⟩).1,
             (convert_content ⟨b⟩).2)) ∧
    (∀ c : String, ("---\n".data).isPrefixOf c.data = true →
        countSeq "---\n".data c.data < 2 →
        convert_file c = convert_content c) := by
  refine ⟨?_, ?_, ?_⟩
  · intro c hc
    unfold convert_file
    rw [hc]
    simp
  · intro h b hh
    exact convert_file_header ⟨"---\n".data ++ h ++ "---\n".data ++ b⟩ h b rfl hh
  · intro c hpre hcount
    unfold convert_file
    rw [if_pos hpre]
    cases hsp : splitSub "---\n".data c.data with
    | nil => exact absurd hsp (splitSubF_ne_nil "---\n".data c.data.length [] c.data)
    | cons a rest =>
      cases rest with
      | nil => rfl
      | cons a2 rest2 =>
        cases rest2 with
        | nil => rfl
        | cons a3 rest3 =>
          exfalso
          have hlen2 : (splitSub "---\n".data c.data).length
              = countSeq "---\n".data c.data + 1 :=
            splitSubF_length_count "---\n".data c.data.length [] c.data (le_refl _)
          rw [hsp] at hlen2
          have hc2 : countSeq ['-', '-', '-', '\n'] c.data < 2 := hcount
          simp at hlen2
          omega

/-- Claim C4 (witness): the amended statement at a prose-only input, a
well-formed two-delimiter document, and an unterminated-header input. -/
theorem C4_witness :
    convert_file "hello" = convert_content "hello" ∧
    convert_file "---\ntitle: t\n---\nbody"
      = (("---\n" : String) ++ convert_frontmatter (parseHeader "title: t\n")
          ++ "---\n" ++ (convert_content "body").1,
         (convert_content "body").2) ∧
    convert_file "---\nonly one" = convert_content "---\nonly one" := by
  refine ⟨C4_amended.1 "hello" (by decide), ?_,
    C4_amended.2.2 "---\nonly one" (by decide) (by decide)⟩
  exact C4_amended.2.1 "title: t\n".data "body".data (by decide)

end HatenaConv
